import Mathlib

/-!
# Engine: renderer core and application loop

A shallow embedding of the layout pass of `Engine/Renderer/Buffer.h`, the shader-source
splitter, display-name derivation and uniform setters of `Platform/OpenGL/OpenGLShader.cpp`,
the scene protocol of `Engine/Renderer/Renderer.cpp` and the event handlers, event dispatch
and frame loop of `Engine/Application.cpp`, with the properties proved about them.

Conventions: `std::string` is a `List Char`; `uint32_t` and `size_t` are natural numbers
with the wrap-around written out (`% U32`, `% SZ`); code that can fail returns `Except`.
-/

set_option autoImplicit false

namespace Engine

/-! ## Buffer.h -/

/-- Number of values of `uint32_t`. -/
def U32 : Nat := 2 ^ 32

/-- The enum `ShaderDataType`. -/
inductive ShaderDataType
  | None | Float | Float2 | Float3 | Float4 | Mat3 | Mat4 | Int | Int2 | Int3 | Int4 | Bool
  deriving DecidableEq, Repr

/-- The function `ShaderDataTypeSize`, with `sizeof(float) = sizeof(int) = 4` and
`sizeof(bool) = 1`; the fall-through after the switch returns 0. -/
def ShaderDataTypeSize : ShaderDataType → Nat
  | .Float => 4
  | .Float2 => 4 * 2
  | .Float3 => 4 * 3
  | .Float4 => 4 * 4
  | .Mat3 => 4 * 3 * 3
  | .Mat4 => 4 * 4 * 4
  | .Int => 4
  | .Int2 => 4 * 2
  | .Int3 => 4 * 3
  | .Int4 => 4 * 4
  | .Bool => 1
  | .None => 0

/-- The struct `BufferElement`; `Size` and `Offset` are `uint32_t` fields. -/
structure BufferElement where
  Name : List Char
  Type_ : ShaderDataType
  Size : Nat
  Offset : Nat
  Normalized : Bool
  deriving DecidableEq, Repr

/-- The constructor `BufferElement(type, name, normalize)`. -/
def BufferElement.create (type : ShaderDataType) (name : List Char) (normalize : Bool) :
    BufferElement :=
  { Name := name, Type_ := type, Size := ShaderDataTypeSize type, Offset := 0,
    Normalized := normalize }

/-- The class `BufferLayout`: the element vector and the stride. -/
structure BufferLayout where
  m_Elements : List BufferElement
  m_stride : Nat
  deriving DecidableEq, Repr

/-- The range-for loop of `CalculateOffsetsAndStride`, run on the remaining elements with
the current values of `offset` and `m_stride`; returns the rewritten elements and the
final `m_stride`. -/
def offsetsLoop : List BufferElement → Nat → Nat → List BufferElement × Nat
  | [], _, stride => ([], stride)
  | element :: rest, offset, stride =>
    let r := offsetsLoop rest ((offset + element.Size) % U32) ((stride + element.Size) % U32)
    ({ element with Offset := offset } :: r.1, r.2)

/-- The pass `BufferLayout::CalculateOffsetsAndStride`. -/
def BufferLayout.CalculateOffsetsAndStride (l : BufferLayout) : BufferLayout :=
  let r := offsetsLoop l.m_Elements 0 0
  { m_Elements := r.1, m_stride := r.2 }

/-- The constructor `BufferLayout(elements)`: copy the list, then run the pass. -/
def BufferLayout.create (elements : List BufferElement) : BufferLayout :=
  BufferLayout.CalculateOffsetsAndStride { m_Elements := elements, m_stride := 0 }

/-- The getter `GetElements`. -/
def BufferLayout.GetElements (l : BufferLayout) : List BufferElement := l.m_Elements

/-- The getter `GetStride`. -/
def BufferLayout.GetStride (l : BufferLayout) : Nat := l.m_stride

/-- Sum of the `Size` fields of a list of elements. -/
def sizeSum (es : List BufferElement) : Nat := (es.map (fun e => e.Size)).sum

/-! ## OpenGLShader.cpp: the `std::string` operations used -/

/-- Number of values of `size_t` (64 bits). -/
def SZ : Nat := 2 ^ 64

/-- The constant `std::string::npos`, the largest `size_t`. -/
def npos : Nat := SZ - 1

/-- Errors that stop the code. -/
inductive ShaderError
  | assertion (msg : String)
  | out_of_range
  | fuel
  deriving DecidableEq, Repr

deriving instance DecidableEq for Except

/-- Modelled from the spec: the macro `EG_CORE_ASSERT` is defined outside the sources at
hand; the spec calls a failed assertion fatal ("should abort (assertion-style) rather than
attempt recovery"), so a failed assertion stops the computation with its message. -/
def EG_CORE_ASSERT (cond : Bool) (msg : String) : Except ShaderError Unit :=
  if cond then .ok () else .error (.assertion msg)

/-- Index of the first suffix of the list that satisfies `P`, the head of the list having
index `i`. -/
def scan (P : List Char → Bool) : List Char → Nat → Option Nat
  | [], _ => none
  | c :: cs, i => if P (c :: cs) then some i else scan P cs (i + 1)

/-- Forward search shared by `find`, `find_first_of` and `find_first_not_of`: the first
index at or after `pos` whose suffix satisfies `P`, or `npos`. -/
def searchFrom (P : List Char → Bool) (s : List Char) (pos : Nat) : Nat :=
  match scan P (s.drop pos) pos with
  | some i => i
  | none => npos

/-- Whether the suffix starts with a character of `set`. -/
def headIn (set : List Char) : List Char → Bool
  | [] => false
  | c :: _ => set.contains c

/-- Whether the suffix starts with a character outside `set`. -/
def headNotIn (set : List Char) : List Char → Bool
  | [] => false
  | c :: _ => !set.contains c

/-- The search `s.find(tok, pos)`, for a non-empty token. -/
def find (s tok : List Char) (pos : Nat) : Nat :=
  searchFrom (fun suf => tok.isPrefixOf suf) s pos

/-- The search `s.find_first_of(set, pos)`. -/
def find_first_of (s set : List Char) (pos : Nat) : Nat :=
  searchFrom (headIn set) s pos

/-- The search `s.find_first_not_of(set, pos)`. -/
def find_first_not_of (s set : List Char) (pos : Nat) : Nat :=
  searchFrom (headNotIn set) s pos

/-- The copy `s.substr(pos, count)`: throws `std::out_of_range` when `pos > s.size()`,
otherwise copies `min(count, size - pos)` characters. -/
def substr (s : List Char) (pos count : Nat) : Except ShaderError (List Char) :=
  if pos > s.length then .error .out_of_range else .ok ((s.drop pos).take count)

/-- Index of the last character of the list that satisfies `p`. -/
def lastIdx (p : Char → Bool) : List Char → Option Nat
  | [] => none
  | c :: cs =>
    match lastIdx p cs with
    | some j => some (j + 1)
    | none => if p c then some 0 else none

/-- The search `s.find_last_of(set)`. -/
def find_last_of (s set : List Char) : Nat :=
  match lastIdx (fun c => set.contains c) s with
  | some i => i
  | none => npos

/-- The search `s.rfind(ch)`. -/
def rfind (s : List Char) (ch : Char) : Nat :=
  match lastIdx (fun c => c == ch) s with
  | some i => i
  | none => npos

/-! ## OpenGLShader.cpp: stage names and the splitting loop -/

/-- The glad constant `GL_VERTEX_SHADER`. -/
def GL_VERTEX_SHADER : Nat := 0x8B31

/-- The glad constant `GL_FRAGMENT_SHADER`. -/
def GL_FRAGMENT_SHADER : Nat := 0x8B30

/-- The glad constant `GL_GEOMETRY_SHADER`. -/
def GL_GEOMETRY_SHADER : Nat := 0x8DD9

/-- The function `ShaderTypeFromString`: the last branch asserts `false`. -/
def ShaderTypeFromString (type : List Char) : Except ShaderError Nat :=
  if type = "vertex".toList then .ok GL_VERTEX_SHADER
  else if type = "fragment".toList ∨ type = "pixel".toList then .ok GL_FRAGMENT_SHADER
  else if type = "geometry".toList then .ok GL_GEOMETRY_SHADER
  else
    match EG_CORE_ASSERT false "Unknown shader type" with
    | .error e => .error e
    | .ok _ => .ok 0

/-- The map `std::unordered_map<GLenum, std::string>`, as a list of entries with distinct
keys. -/
abbrev ShaderMap := List (Nat × List Char)

/-- The assignment `shaderMap[key] = value`. -/
def ShaderMap.set : ShaderMap → Nat → List Char → ShaderMap
  | [], key, value => [(key, value)]
  | (k, v) :: m, key, value =>
    if k = key then (key, value) :: m else (k, v) :: ShaderMap.set m key value

/-- Lookup of a key in the map. -/
def ShaderMap.get? (m : ShaderMap) (key : Nat) : Option (List Char) := List.lookup key m

/-- The token `typeToken`. -/
def typeToken : List Char := "#type".toList

/-- The length `typeTokenLength = strlen(typeToken)`. -/
def typeTokenLength : Nat := typeToken.length

/-- The set of characters `"\r\n"` given to the two line searches. -/
def lineEnds : List Char := "\r\n".toList

/-- One run of the body of the `while` loop of `loadShader(fileName)` with `pos` at a
directive: the stage read from the directive line, the source assigned to it and the next
value of `pos`. -/
def directive (codeString : List Char) (pos : Nat) :
    Except ShaderError (Nat × List Char × Nat) :=
  let eol := find_first_of codeString lineEnds pos
  match EG_CORE_ASSERT (eol != npos) "Syntax error" with
  | .error e => .error e
  | .ok _ =>
    let begin := (pos + typeTokenLength + 1) % SZ
    match substr codeString begin ((eol + SZ - begin) % SZ) with
    | .error e => .error e
    | .ok type =>
      match ShaderTypeFromString type with
      | .error e => .error e
      | .ok stage =>
        match EG_CORE_ASSERT (stage != 0) "Invalid shader type specified!" with
        | .error e => .error e
        | .ok _ =>
          let nextLinePos := find_first_not_of codeString lineEnds eol
          let pos1 := find codeString typeToken nextLinePos
          match substr codeString nextLinePos
              ((pos1 + SZ - (if nextLinePos = npos then (codeString.length + SZ - 1) % SZ
                else nextLinePos)) % SZ) with
          | .error e => .error e
          | .ok source => .ok (stage, source, pos1)

/-- The `while (pos != npos)` loop of `loadShader(fileName)`; `fuel` bounds the number of
iterations. -/
def splitLoop (codeString : List Char) : Nat → Nat → ShaderMap → Except ShaderError ShaderMap
  | 0, _, _ => .error .fuel
  | fuel + 1, pos, shaderMap =>
    if pos = npos then .ok shaderMap
    else
      match directive codeString pos with
      | .error e => .error e
      | .ok (stage, source, pos1) =>
        splitLoop codeString fuel pos1 (ShaderMap.set shaderMap stage source)

/-- The splitting part of `loadShader(fileName)`, from the file's contents to the stage map
handed to `loadProgram`. Every iteration moves `pos` forward, so `size + 1` iterations
suffice. -/
def splitShaderSource (codeString : List Char) : Except ShaderError ShaderMap :=
  splitLoop codeString (codeString.length + 1) (find codeString typeToken 0) []

/-- The values `pos` takes at the head of the loop body, in order: the positions the loop
treats as directives. -/
def boundariesFrom (codeString : List Char) : Nat → Nat → List Nat
  | 0, _ => []
  | fuel + 1, pos =>
    if pos = npos then []
    else
      pos :: (match directive codeString pos with
        | .error _ => []
        | .ok (_, _, pos1) => boundariesFrom codeString fuel pos1)

/-- The directive positions of a buffer. -/
def boundaries (codeString : List Char) : List Nat :=
  boundariesFrom codeString (codeString.length + 1) (find codeString typeToken 0)

/-- The display name computed by the file-path constructors of `OpenGLShader` from the
path string. -/
def deriveName (str_path : List Char) : Except ShaderError (List Char) :=
  let lastSlash := find_last_of str_path "/\\".toList
  let lastSlash := if lastSlash = npos then 0 else (lastSlash + 1) % SZ
  let lastDot := rfind str_path '.'
  let count := if lastDot = npos then (str_path.length + SZ - lastSlash) % SZ
    else (lastDot + SZ - lastSlash) % SZ
  substr str_path lastSlash count

/-- The stage names that `ShaderTypeFromString` recognises. -/
def stageKeywords : List (List Char) :=
  ["vertex".toList, "fragment".toList, "pixel".toList, "geometry".toList]

/-- A block of a shader file: a stage name and the text that follows its directive line. -/
structure Block where
  name : List Char
  body : List Char
  deriving DecidableEq, Repr

/-- The text of a block, `#type <name>\n<body>`. -/
def Block.text (b : Block) : List Char :=
  typeToken ++ ' ' :: b.name ++ '\n' :: b.body

/-- The buffer made of the given blocks, one after the other. -/
def concatBlocks : List Block → List Char
  | [] => []
  | b :: bs => b.text ++ concatBlocks bs



/-- The stage a name denotes: the value `ShaderTypeFromString` returns for it. -/
def stageOf (name : List Char) : Nat :=
  match ShaderTypeFromString name with
  | .ok g => g
  | .error _ => 0

/-- Whether the character at index `k` of the buffer is a line terminator (`\r` or `\n`). -/
def isLineEndAt (s : List Char) (k : Nat) : Bool :=
  match s[k]? with
  | some c => c == '\r' || c == '\n'
  | none => false

/-- Whether an occurrence of `#type` starts at index `p` of the buffer. -/
def tokenAt (s : List Char) (p : Nat) : Bool := typeToken.isPrefixOf (s.drop p)

/-- The stage the loop body reads from the directive at `p`, when it accepts it. -/
def stageAt (s : List Char) (p : Nat) : Option Nat :=
  match directive s p with
  | .ok (stage, _, _) => some stage
  | .error _ => none

/-! ## Renderer.cpp -/

/-- The value type `glm::mat4`. The code only copies matrices, so a matrix is given by the
bit patterns of its sixteen entries. -/
structure Mat4 where
  bits : List Nat
  deriving DecidableEq, Repr

/-- The class `OrthographicCamera`, as far as the renderer reads it. -/
structure OrthographicCamera where
  m_ViewProjectionMatrix : Mat4
  deriving DecidableEq, Repr

/-- The getter `GetViewProjectionMatrix`. -/
def OrthographicCamera.GetViewProjectionMatrix (camera : OrthographicCamera) : Mat4 :=
  camera.m_ViewProjectionMatrix

/-- The struct `Renderer::SceneData`. -/
structure SceneData where
  ViewProjectionMat : Mat4
  deriving DecidableEq, Repr

/-- The calls the renderer makes on its collaborators; shaders and vertex arrays are named
by their handles. -/
inductive RenderCall
  | use (shader : Nat)
  | setMat4fv (shader : Nat) (name : String) (mat : Mat4)
  | Bind (vertexArray : Nat)
  | DrawIndexed (vertexArray : Nat)
  | SetViewport (x y width height : Nat)
  deriving DecidableEq, Repr

/-- The state the renderer works on: the static `m_SceneData`, the viewport of the graphics
context, and the calls issued so far, oldest first. -/
structure RendererState where
  m_SceneData : SceneData
  viewport : Nat × Nat × Nat × Nat
  issued : List RenderCall
  deriving DecidableEq, Repr

/-- Modelled from the spec: `RenderCommand::SetViewport` is defined outside the sources at
hand; it "updates the active viewport region" to the rectangle it is given. -/
def RenderCommand.SetViewport (st : RendererState) (x y width height : Nat) : RendererState :=
  { st with viewport := (x, y, width, height),
            issued := st.issued ++ [RenderCall.SetViewport x y width height] }

/-- The function `Renderer::OnWindowResize`. -/
def Renderer.OnWindowResize (st : RendererState) (width height : Nat) : RendererState :=
  RenderCommand.SetViewport st 0 0 width height

/-- The function `Renderer::BeginScene`. -/
def Renderer.BeginScene (st : RendererState) (camera : OrthographicCamera) : RendererState :=
  { st with m_SceneData := { ViewProjectionMat := camera.GetViewProjectionMatrix } }

/-- The function `Renderer::EndScene`, whose body is empty. -/
def Renderer.EndScene (st : RendererState) : RendererState := st

/-- The function `Renderer::Submit`; the shader is an `OpenGLShader`. -/
def Renderer.Submit (st : RendererState) (vertexArray shader : Nat) (transform : Mat4) :
    RendererState :=
  { st with issued := st.issued ++
      [RenderCall.use shader,
       RenderCall.setMat4fv shader "modelMat" transform,
       RenderCall.setMat4fv shader "viewProjMat" st.m_SceneData.ViewProjectionMat,
       RenderCall.Bind vertexArray,
       RenderCall.DrawIndexed vertexArray] }

/-- A call of one of the three scene functions. -/
inductive SceneCall
  | BeginScene (camera : OrthographicCamera)
  | Submit (vertexArray shader : Nat) (transform : Mat4)
  | EndScene
  deriving DecidableEq, Repr

/-- Errors a scene call could raise. -/
inductive RendererError
  | assertion (msg : String)
  deriving DecidableEq, Repr

/-- One scene call. None of the three functions contains an assertion or another statement
that fails, so each call returns normally. -/
def Renderer.call (st : RendererState) : SceneCall → Except RendererError RendererState
  | .BeginScene camera => .ok (Renderer.BeginScene st camera)
  | .Submit vertexArray shader transform => .ok (Renderer.Submit st vertexArray shader transform)
  | .EndScene => .ok (Renderer.EndScene st)

/-- A sequence of scene calls, stopping at the first error. -/
def Renderer.run (st : RendererState) : List SceneCall → Except RendererError RendererState
  | [] => .ok st
  | c :: cs =>
    match Renderer.call st c with
    | .error e => .error e
    | .ok st1 => Renderer.run st1 cs

/-- The two states of the scene protocol the spec describes. -/
inductive ScenePhase
  | Idle
  | SceneActive
  deriving DecidableEq, Repr

/-- The protocol in the spec's words: `BeginScene` is valid only from `Idle` and leads to
`SceneActive`, `Submit` is valid only while `SceneActive`, `EndScene` returns to `Idle`. -/
def protocolValid : ScenePhase → List SceneCall → Bool
  | _, [] => true
  | .Idle, .BeginScene _ :: cs => protocolValid .SceneActive cs
  | .SceneActive, .BeginScene _ :: _ => false
  | .SceneActive, .Submit _ _ _ :: cs => protocolValid .SceneActive cs
  | .Idle, .Submit _ _ _ :: _ => false
  | _, .EndScene :: cs => protocolValid .Idle cs

/-- Whether a call is a `BeginScene`. -/
def SceneCall.isBeginScene : SceneCall → Bool
  | .BeginScene _ => true
  | _ => false

/-! ## Application.cpp -/

/-- The event `WindowResizeEvent`: two `unsigned int` sizes. -/
structure WindowResizeEvent where
  m_Width : Nat
  m_Height : Nat
  deriving DecidableEq, Repr

/-- The getter `GetWidth`. -/
def WindowResizeEvent.GetWidth (evnt : WindowResizeEvent) : Nat := evnt.m_Width

/-- The getter `GetHeight`. -/
def WindowResizeEvent.GetHeight (evnt : WindowResizeEvent) : Nat := evnt.m_Height

/-- The members of `Application` that the event handlers touch, with the renderer's state. -/
structure Application where
  m_running : Bool
  m_minimized : Bool
  renderer : RendererState
  deriving DecidableEq, Repr

/-- The handler `Application::OnWindowResize`: the new state and the returned flag (whether
the event is consumed). -/
def Application.OnWindowResize (app : Application) (evnt : WindowResizeEvent) :
    Application × Bool :=
  if evnt.GetWidth = 0 ∧ evnt.GetHeight = 0 then
    ({ app with m_minimized := true }, false)
  else
    ({ app with m_minimized := false,
                renderer := Renderer.OnWindowResize app.renderer evnt.GetWidth evnt.GetHeight },
     false)

/-! ## Application.cpp: events, layers and the frame loop -/

/-- The kinds of event the window delivers, with their payload. -/
inductive EventType
  | WindowClose
  | WindowResize (width height : Nat)
  | Other (tag : Nat)
  deriving DecidableEq, Repr

/-- The class `Event`: its kind and the flag `m_Handled`. -/
structure Event where
  kind : EventType
  m_Handled : Bool
  deriving DecidableEq, Repr

/-- A `Layer*`: the layer's identity and its `OnEvent`, given by the value it leaves in
`m_Handled` of the event it is handed. Its other callbacks only appear as calls. -/
structure Layer where
  name : Nat
  OnEvent : Event → Bool

/-- The calls the application makes on its layers, on the debug-overlay layer's frame
brackets and on the window. -/
inductive AppCall
  | OnAttach (layer : Nat)
  | OnUpdate (layer : Nat) (timestep : Int)
  | OnImGuiRender (layer : Nat)
  | OnEvent (layer : Nat) (evnt : Event)
  | ImGuiBegin
  | ImGuiEnd
  | WindowOnUpdate
  deriving DecidableEq, Repr

/-- Modelled from the spec: the class `LayerStack` is defined outside the sources at hand.
It is an ordered sequence of layers with an overlay boundary: "`PushLayer` inserts before
the overlay boundary, advances the boundary; `PushOverlay` appends at the end". -/
structure LayerStack where
  layers : List Layer
  boundary : Nat

/-- Modelled from the spec: `LayerStack::PushLayer`, which inserts before the overlay
boundary and advances the boundary. -/
def LayerStack.PushLayer (s : LayerStack) (layer : Layer) : LayerStack :=
  { layers := s.layers.take s.boundary ++ layer :: s.layers.drop s.boundary,
    boundary := s.boundary + 1 }

/-- Modelled from the spec: `LayerStack::PushOverlay`, which appends at the end. -/
def LayerStack.PushOverlay (s : LayerStack) (overlay : Layer) : LayerStack :=
  { s with layers := s.layers ++ [overlay] }

/-- The handler `Application::OnWindowClose`: the new state and the returned flag. -/
def Application.OnWindowClose (app : Application) : Application × Bool :=
  ({ app with m_running := false }, true)

/-- The class `Application` with its layer stack, its debug-overlay layer, the time of the
last frame, and the calls made so far, oldest first. Clock readings are whole ticks. -/
structure ApplicationState extends Application where
  m_layerStack : LayerStack
  m_imGuiLayer : Layer
  m_lastFrameTime : Int
  calls : List AppCall

/-- The method `Application::PushLayer`. -/
def ApplicationState.PushLayer (app : ApplicationState) (layer : Layer) : ApplicationState :=
  { app with m_layerStack := app.m_layerStack.PushLayer layer,
             calls := app.calls ++ [AppCall.OnAttach layer.name] }

/-- The method `Application::PushOverlay`. -/
def ApplicationState.PushOverlay (app : ApplicationState) (overlay : Layer) :
    ApplicationState :=
  { app with m_layerStack := app.m_layerStack.PushOverlay overlay,
             calls := app.calls ++ [AppCall.OnAttach overlay.name] }

/-- The constructor `Application::Application`, from the members' initial values (set in
the header) and the new `ImGuiLayer`: the layer stack starts empty and the debug-overlay
layer is pushed with `PushLayer`. Window creation and `Renderer::Init` leave the members
modelled here as they are. -/
def ApplicationState.create (members : Application) (lastFrameTime : Int)
    (imGuiLayer : Layer) : ApplicationState :=
  ApplicationState.PushLayer
    { toApplication := members, m_layerStack := { layers := [], boundary := 0 },
      m_imGuiLayer := imGuiLayer, m_lastFrameTime := lastFrameTime, calls := [] }
    imGuiLayer

/-- Modelled from the spec: `EventDispatcher::Dispatch<WindowCloseEvent>` is defined outside
the sources at hand; when the event is a window-close event it runs the handler and stores
the handler's result in the event's handled flag, otherwise it does nothing. -/
def ApplicationState.dispatchWindowClose (app : ApplicationState) (evnt : Event) :
    ApplicationState × Event :=
  match evnt.kind with
  | .WindowClose =>
    let r := app.toApplication.OnWindowClose
    ({ app with toApplication := r.1 }, { evnt with m_Handled := r.2 })
  | _ => (app, evnt)

/-- Modelled from the spec: `EventDispatcher::Dispatch<WindowResizeEvent>`, in the same
way. -/
def ApplicationState.dispatchWindowResize (app : ApplicationState) (evnt : Event) :
    ApplicationState × Event :=
  match evnt.kind with
  | .WindowResize width height =>
    let r := app.toApplication.OnWindowResize { m_Width := width, m_Height := height }
    ({ app with toApplication := r.1 }, { evnt with m_Handled := r.2 })
  | _ => (app, evnt)

/-- The first two statements of `Application::OnEvent`: the two built-in handlers. -/
def ApplicationState.builtin (app : ApplicationState) (evnt : Event) :
    ApplicationState × Event :=
  let r := app.dispatchWindowClose evnt
  r.1.dispatchWindowResize r.2

/-- The `for` loop of `Application::OnEvent` over the layers still to visit, given in the
order the iterator reaches them (from `end()` down to `begin()`): the calls made and the
event as it is left. -/
def layerEventLoop : List Layer → Event → List AppCall × Event
  | [], evnt => ([], evnt)
  | layer :: rest, evnt =>
    let evnt1 := { evnt with m_Handled := layer.OnEvent evnt }
    if evnt1.m_Handled then ([AppCall.OnEvent layer.name evnt], evnt1)
    else
      let r := layerEventLoop rest evnt1
      (AppCall.OnEvent layer.name evnt :: r.1, r.2)

/-- The method `Application::OnEvent`. -/
def ApplicationState.OnEvent (app : ApplicationState) (evnt : Event) :
    ApplicationState × Event :=
  let b := app.builtin evnt
  let r := layerEventLoop b.1.m_layerStack.layers.reverse b.2
  ({ b.1 with calls := b.1.calls ++ r.1 }, r.2)

/-- What the environment supplies to one iteration of `Run`: the reading of `glfwGetTime()`
and the events the window hands to the event callback during its `OnUpdate`. -/
structure Frame where
  time : Int
  events : List EventType

/-- The window's `OnUpdate`: every pending event is handed, not yet handled, to
`Application::OnEvent`. -/
def ApplicationState.pumpEvents (app : ApplicationState) : List EventType → ApplicationState
  | [] => app
  | kind :: rest =>
    ApplicationState.pumpEvents (app.OnEvent { kind := kind, m_Handled := false }).1 rest

/-- The calls of the update phase of one iteration. -/
def updatePhase (minimized : Bool) (layers : List Layer) (timestep : Int) : List AppCall :=
  if !minimized then layers.map (fun layer => AppCall.OnUpdate layer.name timestep) else []

/-- The calls of the UI-render phase of one iteration. -/
def renderPhase (layers : List Layer) : List AppCall :=
  [AppCall.ImGuiBegin] ++ layers.map (fun layer => AppCall.OnImGuiRender layer.name)
    ++ [AppCall.ImGuiEnd]

/-- The body of the `while` loop of `Application::Run`. -/
def ApplicationState.frame (app : ApplicationState) (f : Frame) : ApplicationState :=
  let timestep := f.time - app.m_lastFrameTime
  let app1 := { app with m_lastFrameTime := f.time }
  let app2 := { app1 with
    calls := app1.calls ++ (updatePhase app1.m_minimized app1.m_layerStack.layers timestep ++
      (renderPhase app1.m_layerStack.layers ++ [AppCall.WindowOnUpdate])) }
  app2.pumpEvents f.events

/-- The method `Application::Run`, for as long as the environment supplies frames. -/
def ApplicationState.Run (app : ApplicationState) : List Frame → ApplicationState
  | [] => app
  | f :: rest => if app.m_running then ApplicationState.Run (app.frame f) rest else app

/-- Whether a call is a layer's `OnEvent`. -/
def AppCall.isOnEvent : AppCall → Bool
  | .OnEvent _ _ => true
  | _ => false

/-! ## OpenGLShader.cpp: uniform setters -/

/-- The value type `glm::vec4`, given by the bit patterns of its four entries. -/
structure Vec4 where
  bits : List Nat
  deriving DecidableEq, Repr

/-- The GL commands the setters issue. A `float` argument is given by its bit pattern. -/
inductive GLCall
  | glUseProgram (program : Nat)
  | glGetUniformLocation (program : Nat) (name : String)
  | glGetUniformBlockIndex (program : Nat) (name : String)
  | glUniform1i (location : Int) (v0 : Int)
  | glUniform4f (location : Int) (v0 v1 v2 v3 : Nat)
  | glUniform4fv (location : Int) (count : Nat) (value : Vec4)
  deriving DecidableEq, Repr

/-- The answers of the GL driver to the two queries, per program and name. -/
structure GLDriver where
  uniformLocation : Nat → String → Int
  uniformBlockIndex : Nat → String → Int

/-- The class `OpenGLShader`, as far as the setters read it: the program handle `id`. -/
structure OpenGLShader where
  id : Nat
  deriving DecidableEq, Repr

/-- The method `getUniformLocation(name)`: the location and the command issued. -/
def OpenGLShader.getUniformLocation (sh : OpenGLShader) (gl : GLDriver) (name : String) :
    Int × List GLCall :=
  (gl.uniformLocation sh.id name, [GLCall.glGetUniformLocation sh.id name])

/-- The method `getUniformBlockIndex(listName, memberName, index)`. -/
def OpenGLShader.getUniformBlockIndex (sh : OpenGLShader) (gl : GLDriver)
    (listName memberName : String) (index : Nat) : Int × List GLCall :=
  (gl.uniformBlockIndex sh.id (listName ++ "[" ++ toString index ++ "]." ++ memberName),
   [GLCall.glGetUniformBlockIndex sh.id
      (listName ++ "[" ++ toString index ++ "]." ++ memberName)])

/-- The loop `for (size_t i = 0; i < vec.size(); i++) body(i, vec[i])`, from index `i` on
the elements still to visit. -/
def forEachIndexed {α : Type} (body : Nat → α → List GLCall) : Nat → List α → List GLCall
  | _, [] => []
  | i, v :: vs => body i v ++ forEachIndexed body (i + 1) vs

/-- The loop `for (size_t i = 0; i < size; i++) body(i)`, from index `i` with `n` rounds
to go. -/
def forCount (body : Nat → List GLCall) : Nat → Nat → List GLCall
  | _, 0 => []
  | i, n + 1 => body i ++ forCount body (i + 1) n

/-- The setter `setBool(name, value)`. -/
def OpenGLShader.setBool (sh : OpenGLShader) (gl : GLDriver) (name : String) (value : Bool) :
    List GLCall :=
  [GLCall.glUseProgram sh.id, GLCall.glGetUniformLocation sh.id name,
   GLCall.glUniform1i (gl.uniformLocation sh.id name) (if value then 1 else 0)]

/-- The setter `setBool(location, value)`. -/
def OpenGLShader.setBool_loc (sh : OpenGLShader) (location : Int) (value : Bool) :
    List GLCall :=
  [GLCall.glUseProgram sh.id, GLCall.glUniform1i location (if value then 1 else 0)]

/-- The setter `setInt(name, value)`. -/
def OpenGLShader.setInt (sh : OpenGLShader) (gl : GLDriver) (name : String) (value : Int) :
    List GLCall :=
  [GLCall.glUseProgram sh.id, GLCall.glGetUniformLocation sh.id name,
   GLCall.glUniform1i (gl.uniformLocation sh.id name) value]

/-- The setter `setInt(listName, memberName, value)`. -/
def OpenGLShader.setInt_member (sh : OpenGLShader) (gl : GLDriver)
    (listName memberName : String) (value : Int) : List GLCall :=
  [GLCall.glUseProgram sh.id,
   GLCall.glGetUniformLocation sh.id (listName ++ "." ++ memberName),
   GLCall.glUniform1i (gl.uniformLocation sh.id (listName ++ "." ++ memberName)) value]

/-- The setter `setInt(listName, memberName, value, idx)`. -/
def OpenGLShader.setInt_indexed (sh : OpenGLShader) (gl : GLDriver)
    (listName memberName : String) (value : Int) (idx : Nat) : List GLCall :=
  [GLCall.glUseProgram sh.id] ++ (sh.getUniformBlockIndex gl listName memberName idx).2 ++
    [GLCall.glUniform1i (sh.getUniformBlockIndex gl listName memberName idx).1 value]

/-- The setter `setInt(location, value)`. -/
def OpenGLShader.setInt_loc (sh : OpenGLShader) (location : Int) (value : Int) : List GLCall :=
  [GLCall.glUseProgram sh.id, GLCall.glUniform1i location value]

/-- The setter `setInt_vector(name, vec)`. -/
def OpenGLShader.setInt_vector (sh : OpenGLShader) (gl : GLDriver) (name : String)
    (vec : List Int) : List GLCall :=
  [GLCall.glUseProgram sh.id] ++ forEachIndexed (fun i v =>
    (sh.getUniformLocation gl (name ++ "[" ++ toString i ++ "]")).2 ++
      sh.setInt_loc (sh.getUniformLocation gl (name ++ "[" ++ toString i ++ "]")).1 v) 0 vec

/-- The setter `setInt_vector(name, value, size)`. -/
def OpenGLShader.setInt_vector_fill (sh : OpenGLShader) (gl : GLDriver) (name : String)
    (value : Int) (size : Nat) : List GLCall :=
  [GLCall.glUseProgram sh.id] ++ forCount (fun i =>
    (sh.getUniformLocation gl (name ++ "[" ++ toString i ++ "]")).2 ++
      sh.setInt_loc (sh.getUniformLocation gl (name ++ "[" ++ toString i ++ "]")).1 value)
    0 size

/-- The setter `setInt_vector(listName, memberName, vec)`. -/
def OpenGLShader.setInt_vector_member (sh : OpenGLShader) (gl : GLDriver)
    (listName memberName : String) (vec : List Int) : List GLCall :=
  [GLCall.glUseProgram sh.id] ++ forEachIndexed (fun i v =>
    (sh.getUniformLocation gl (listName ++ "[" ++ toString i ++ "]." ++ memberName)).2 ++
      sh.setInt_loc
        (sh.getUniformLocation gl (listName ++ "[" ++ toString i ++ "]." ++ memberName)).1 v)
    0 vec

/-- The setter `setInt_vector(listName, memberName, value, size)`. -/
def OpenGLShader.setInt_vector_member_fill (sh : OpenGLShader) (gl : GLDriver)
    (listName memberName : String) (value : Int) (size : Nat) : List GLCall :=
  [GLCall.glUseProgram sh.id] ++ forCount (fun i =>
    (sh.getUniformLocation gl (listName ++ "[" ++ toString i ++ "]." ++ memberName)).2 ++
      sh.setInt_loc
        (sh.getUniformLocation gl (listName ++ "[" ++ toString i ++ "]." ++ memberName)).1
        value)
    0 size

/-- The setter `set4f(name, v1, v2, v3, v4)`. -/
def OpenGLShader.set4f (sh : OpenGLShader) (gl : GLDriver) (name : String)
    (v1 v2 v3 v4 : Nat) : List GLCall :=
  [GLCall.glUseProgram sh.id, GLCall.glGetUniformLocation sh.id name,
   GLCall.glUniform4f (gl.uniformLocation sh.id name) v1 v2 v3 v4]

/-- The setter `set4fv(name, vec)`. -/
def OpenGLShader.set4fv (sh : OpenGLShader) (gl : GLDriver) (name : String) (vec : Vec4) :
    List GLCall :=
  [GLCall.glUseProgram sh.id, GLCall.glGetUniformLocation sh.id name,
   GLCall.glUniform4fv (gl.uniformLocation sh.id name) 1 vec]

/-- The setter `set4fv(listName, memberName, vec)`. -/
def OpenGLShader.set4fv_member (sh : OpenGLShader) (gl : GLDriver)
    (listName memberName : String) (vec : Vec4) : List GLCall :=
  [GLCall.glUseProgram sh.id,
   GLCall.glGetUniformLocation sh.id (listName ++ "." ++ memberName),
   GLCall.glUniform4fv (gl.uniformLocation sh.id (listName ++ "." ++ memberName)) 1 vec]

/-- The setter `set4fv(listName, memberName, vec, idx)`. -/
def OpenGLShader.set4fv_indexed (sh : OpenGLShader) (gl : GLDriver)
    (listName memberName : String) (vec : Vec4) (idx : Nat) : List GLCall :=
  [GLCall.glUseProgram sh.id] ++ (sh.getUniformBlockIndex gl listName memberName idx).2 ++
    [GLCall.glUniform4fv (sh.getUniformBlockIndex gl listName memberName idx).1 1 vec]

/-- The setter `set4fv(location, vec)`. -/
def OpenGLShader.set4fv_loc (sh : OpenGLShader) (location : Int) (vec : Vec4) : List GLCall :=
  [GLCall.glUseProgram sh.id, GLCall.glUniform4fv location 1 vec]

/-- The setter `set4f(location, v1, v2, v3, v4)`. -/
def OpenGLShader.set4f_loc (sh : OpenGLShader) (location : Int) (v1 v2 v3 v4 : Nat) :
    List GLCall :=
  [GLCall.glUseProgram sh.id, GLCall.glUniform4f location v1 v2 v3 v4]

/-- The setter `set4fv_vector(name, vec)`. -/
def OpenGLShader.set4fv_vector (sh : OpenGLShader) (gl : GLDriver) (name : String)
    (vec : List Vec4) : List GLCall :=
  [GLCall.glUseProgram sh.id] ++ forEachIndexed (fun i v =>
    (sh.getUniformLocation gl (name ++ "[" ++ toString i ++ "]")).2 ++
      sh.set4fv_loc (sh.getUniformLocation gl (name ++ "[" ++ toString i ++ "]")).1 v) 0 vec

/-- The setter `set4fv_vector(name, vec, size)`. -/
def OpenGLShader.set4fv_vector_fill (sh : OpenGLShader) (gl : GLDriver) (name : String)
    (vec : Vec4) (size : Nat) : List GLCall :=
  [GLCall.glUseProgram sh.id] ++ forCount (fun i =>
    (sh.getUniformLocation gl (name ++ "[" ++ toString i ++ "]")).2 ++
      sh.set4fv_loc (sh.getUniformLocation gl (name ++ "[" ++ toString i ++ "]")).1 vec)
    0 size

/-- The setter `set4fv_vector(listName, memberName, vec)`, whose body is the loop alone. -/
def OpenGLShader.set4fv_vector_member (sh : OpenGLShader) (gl : GLDriver)
    (listName memberName : String) (vec : List Vec4) : List GLCall :=
  forEachIndexed (fun i v =>
    (sh.getUniformLocation gl (listName ++ "[" ++ toString i ++ "]." ++ memberName)).2 ++
      sh.set4fv_loc
        (sh.getUniformLocation gl (listName ++ "[" ++ toString i ++ "]." ++ memberName)).1 v)
    0 vec

/-- The setter `set4fv_vector(listName, memberName, vec, size)`, whose body is the loop
alone. -/
def OpenGLShader.set4fv_vector_member_fill (sh : OpenGLShader) (gl : GLDriver)
    (listName memberName : String) (vec : Vec4) (size : Nat) : List GLCall :=
  forCount (fun i =>
    (sh.getUniformLocation gl (listName ++ "[" ++ toString i ++ "]." ++ memberName)).2 ++
      sh.set4fv_loc
        (sh.getUniformLocation gl (listName ++ "[" ++ toString i ++ "]." ++ memberName)).1
        vec)
    0 size

/-! ## Proofs: Buffer.h -/

theorem offsetsLoop_length (es : List BufferElement) (off st : Nat) :
    (offsetsLoop es off st).1.length = es.length := by
  induction es generalizing off st with
  | nil => rfl
  | cons e es ih => simp [offsetsLoop, ih]

theorem offsetsLoop_stride (es : List BufferElement) (off st : Nat) :
    (offsetsLoop es off st).2 = (st + sizeSum es) % U32 ∨
      (es = [] ∧ (offsetsLoop es off st).2 = st) := by
  induction es generalizing off st with
  | nil => right; exact ⟨rfl, rfl⟩
  | cons e es ih =>
    left
    rcases ih ((off + e.Size) % U32) ((st + e.Size) % U32) with h | ⟨h1, h2⟩
    · simp only [offsetsLoop, h, sizeSum, List.map_cons, List.sum_cons]
      rw [Nat.mod_add_mod, Nat.add_assoc]
    · subst h1
      simp only [offsetsLoop, sizeSum, List.map_cons, List.sum_cons, List.map_nil, List.sum_nil,
        Nat.add_zero]

theorem offsetsLoop_getElem (es : List BufferElement) (off st : Nat) (hoff : off < U32)
    (i : Nat) (h : i < es.length) :
    (offsetsLoop es off st).1[i]? =
      some { es[i] with Offset := (off + sizeSum (es.take i)) % U32 } := by
  induction es generalizing off st i with
  | nil => simp at h
  | cons e es ih =>
    cases i with
    | zero => simp [offsetsLoop, sizeSum, Nat.mod_eq_of_lt hoff]
    | succ i =>
      have hi : i < es.length := by simpa using h
      have := ih ((off + e.Size) % U32) ((st + e.Size) % U32) (Nat.mod_lt _ (by decide)) i hi
      simp only [offsetsLoop, List.getElem?_cons_succ, this, List.getElem_cons_succ,
        List.take_succ_cons, sizeSum, List.map_cons, List.sum_cons]
      rw [Nat.mod_add_mod, Nat.add_assoc]

theorem offsetsLoop_idem (es : List BufferElement) (a b off st : Nat) :
    offsetsLoop (offsetsLoop es a b).1 off st = offsetsLoop es off st := by
  induction es generalizing a b off st with
  | nil => rfl
  | cons e es ih => simp [offsetsLoop, ih]

theorem offsetsLoop_fix (es : List BufferElement) (off st : Nat) :
    (offsetsLoop (offsetsLoop es off st).1 off st) = offsetsLoop es off st :=
  offsetsLoop_idem es off st off st

theorem calculate_idem (l : BufferLayout) :
    l.CalculateOffsetsAndStride.CalculateOffsetsAndStride = l.CalculateOffsetsAndStride := by
  simp [BufferLayout.CalculateOffsetsAndStride, offsetsLoop_idem]

theorem calculate_iterate (l : BufferLayout) (n : Nat) :
    (BufferLayout.CalculateOffsetsAndStride^[n]) l.CalculateOffsetsAndStride =
      l.CalculateOffsetsAndStride := by
  induction n with
  | zero => rfl
  | succ n ih => rw [Function.iterate_succ_apply', ih, calculate_idem]

/-- C1: after the constructor's layout pass and any number `n` of further passes, the stored
list has the input's length and its `i`-th element is the input's `i`-th element with only
`Offset` replaced by the sum (mod 2^32) of the sizes before it; the stride is the sum
(mod 2^32) of all sizes; and one more pass leaves the layout as it is. -/
theorem C1_layout_offsets_stride (elements : List BufferElement) (n : Nat) :
    ((BufferLayout.CalculateOffsetsAndStride^[n]) (BufferLayout.create elements)).GetElements.length
        = elements.length ∧
    (∀ (i : Nat) (h : i < elements.length),
      ((BufferLayout.CalculateOffsetsAndStride^[n]) (BufferLayout.create elements)).GetElements[i]?
        = some { elements[i] with Offset := sizeSum (elements.take i) % U32 }) ∧
    ((BufferLayout.CalculateOffsetsAndStride^[n]) (BufferLayout.create elements)).GetStride
        = sizeSum elements % U32 ∧
    ((BufferLayout.CalculateOffsetsAndStride^[n])
        (BufferLayout.create elements)).CalculateOffsetsAndStride
        = (BufferLayout.CalculateOffsetsAndStride^[n]) (BufferLayout.create elements) := by
  have hit : (BufferLayout.CalculateOffsetsAndStride^[n]) (BufferLayout.create elements)
      = BufferLayout.create elements := calculate_iterate _ n
  rw [hit]
  refine ⟨?_, ?_, ?_, ?_⟩
  · simp [BufferLayout.create, BufferLayout.CalculateOffsetsAndStride,
      BufferLayout.GetElements, offsetsLoop_length]
  · intro i h
    have := offsetsLoop_getElem elements 0 0 (by decide) i h
    simpa [BufferLayout.create, BufferLayout.CalculateOffsetsAndStride,
      BufferLayout.GetElements] using this
  · rcases offsetsLoop_stride elements 0 0 with h | ⟨h1, h2⟩
    · simpa [BufferLayout.create, BufferLayout.CalculateOffsetsAndStride,
        BufferLayout.GetStride] using h
    · subst h1
      simp [BufferLayout.create, BufferLayout.CalculateOffsetsAndStride,
        BufferLayout.GetStride, offsetsLoop, sizeSum]
  · exact calculate_idem _

/-! ## Proofs: string searches -/

theorem SZ_eq : SZ = 18446744073709551616 := by decide

theorem npos_eq : npos = 18446744073709551615 := by decide

theorem scan_skip (P : List Char → Bool) (a b : List Char) (i : Nat)
    (h : ∀ k, k < a.length → P (a.drop k ++ b) = false) :
    scan P (a ++ b) i = scan P b (i + a.length) := by
  induction a generalizing i with
  | nil => simp
  | cons c a ih =>
    have h0 : P (c :: (a ++ b)) = false := by simpa using h 0 (by simp)
    have hs : ∀ k, k < a.length → P (a.drop k ++ b) = false := by
      intro k hk
      simpa using h (k + 1) (by simpa using hk)
    have e : scan P (c :: (a ++ b)) i = scan P (a ++ b) (i + 1) := by
      rw [scan, if_neg (by simp [h0])]
    rw [List.cons_append, e, ih _ hs, List.length_cons,
      show i + 1 + a.length = i + (a.length + 1) by omega]

theorem scan_hit (P : List Char → Bool) (l : List Char) (i : Nat) (h : P l = true)
    (hne : l ≠ []) : scan P l i = some i := by
  cases l with
  | nil => exact absurd rfl hne
  | cons c cs => simp [scan, h]

theorem scan_spec (P : List Char → Bool) (l : List Char) (i : Nat) :
    (scan P l i = none ∧ ∀ k, k < l.length → P (l.drop k) = false) ∨
    (∃ k, scan P l i = some (i + k) ∧ k < l.length ∧ P (l.drop k) = true ∧
      ∀ j, j < k → P (l.drop j) = false) := by
  induction l generalizing i with
  | nil => left; simp [scan]
  | cons c cs ih =>
    by_cases hP : P (c :: cs) = true
    · right
      exact ⟨0, by simp [scan, hP], by simp, by simpa using hP, by simp⟩
    · have hf : P (c :: cs) = false := by simpa using hP
      rcases ih (i + 1) with ⟨h1, h2⟩ | ⟨k, h1, h2, h3, h4⟩
      · left
        refine ⟨by simp [scan, hf, h1], ?_⟩
        intro k hk
        cases k with
        | zero => simpa using hf
        | succ k => simpa using h2 k (by simpa using hk)
      · right
        refine ⟨k + 1, ?_, by simpa using h2, by simpa using h3, ?_⟩
        · simp only [scan, hf, Bool.false_eq_true, if_false, h1]
          congr 1
          omega
        · intro j hj
          cases j with
          | zero => simpa using hf
          | succ j => simpa using h4 j (by omega)

/-- What a forward search returns: `npos` when no suffix from `pos` on satisfies `P`,
otherwise the least index from `pos` on whose suffix does. -/
theorem searchFrom_spec (P : List Char → Bool) (s : List Char) (pos : Nat) :
    (searchFrom P s pos = npos ∧ ∀ k, pos ≤ k → k < s.length → P (s.drop k) = false) ∨
    (pos ≤ searchFrom P s pos ∧ searchFrom P s pos < s.length ∧
      P (s.drop (searchFrom P s pos)) = true ∧
      ∀ k, pos ≤ k → k < searchFrom P s pos → P (s.drop k) = false) := by
  rcases scan_spec P (s.drop pos) pos with ⟨h1, h2⟩ | ⟨k, h1, h2, h3, h4⟩
  · left
    refine ⟨by simp [searchFrom, h1], ?_⟩
    intro k hk hlt
    have := h2 (k - pos) (by simp only [List.length_drop]; omega)
    rw [List.drop_drop] at this
    rwa [show pos + (k - pos) = k by omega] at this
  · right
    have hv : searchFrom P s pos = pos + k := by simp [searchFrom, h1]
    rw [hv]
    simp only [List.length_drop] at h2
    refine ⟨by omega, by omega, by simpa [List.drop_drop] using h3, ?_⟩
    intro j hj hlt
    have := h4 (j - pos) (by omega)
    rw [List.drop_drop] at this
    rwa [show pos + (j - pos) = j by omega] at this

theorem searchFrom_eq_of (P : List Char → Bool) (s : List Char) (pos j : Nat)
    (h1 : pos ≤ j) (h2 : j < s.length) (h3 : P (s.drop j) = true)
    (h4 : ∀ k, pos ≤ k → k < j → P (s.drop k) = false) :
    searchFrom P s pos = j := by
  rcases searchFrom_spec P s pos with ⟨_, h⟩ | ⟨a, b, c, d⟩
  · have := h j h1 h2
    simp [h3] at this
  · rcases Nat.lt_trichotomy (searchFrom P s pos) j with hlt | heq | hgt
    · have := h4 _ a hlt
      simp [c] at this
    · exact heq
    · have := d j h1 hgt
      simp [h3] at this

theorem searchFrom_npos_of (P : List Char → Bool) (s : List Char) (pos : Nat)
    (h : ∀ k, pos ≤ k → k < s.length → P (s.drop k) = false) :
    searchFrom P s pos = npos := by
  rcases searchFrom_spec P s pos with ⟨h1, _⟩ | ⟨a, b, c, _⟩
  · exact h1
  · have := h _ a b
    simp [c] at this

theorem headIn_drop (set s : List Char) (k : Nat) (h : k < s.length) :
    headIn set (s.drop k) = set.contains s[k] := by
  rw [List.drop_eq_getElem_cons h]; rfl

theorem headNotIn_drop (set s : List Char) (k : Nat) (h : k < s.length) :
    headNotIn set (s.drop k) = !set.contains s[k] := by
  rw [List.drop_eq_getElem_cons h]; rfl

theorem typeToken_eq : typeToken = ['#', 't', 'y', 'p', 'e'] := by decide

theorem lineEnds_eq : lineEnds = ['\r', '\n'] := by decide

/-- A character of the token is not a line terminator. -/
theorem not_lineEnd_of_occ (s : List Char) (pos k : Nat) (hocc : typeToken <+: s.drop pos)
    (hk : k < 5) : headIn lineEnds (s.drop (pos + k)) = false := by
  obtain ⟨t, ht⟩ := hocc
  have : s.drop (pos + k) = (typeToken ++ t).drop k := by rw [ht, List.drop_drop]
  rw [this, typeToken_eq, lineEnds_eq]
  interval_cases k <;> simp [headIn]

theorem occ_length (s : List Char) (pos : Nat) (hocc : typeToken <+: s.drop pos) :
    pos + 5 ≤ s.length := by
  have := hocc.length_le
  simp only [List.length_drop, typeToken_eq, List.length_cons, List.length_nil] at this
  omega

theorem directive_spec (s : List Char) (pos g : Nat) (src : List Char) (pos1 : Nat)
    (hlen : s.length < npos) (hocc : typeToken <+: s.drop pos)
    (h : directive s pos = .ok (g, src, pos1)) :
    ∃ eol n, eol = find_first_of s lineEnds pos ∧ n = find_first_not_of s lineEnds eol ∧
      pos1 = find s typeToken n ∧
      pos + 5 ≤ eol ∧ eol < n ∧ n < s.length ∧
      ShaderTypeFromString ((s.drop (pos + 6)).take ((eol + SZ - (pos + 6)) % SZ)) = .ok g ∧
      src = (s.drop n).take ((pos1 + SZ - n) % SZ) := by
  have hp5 := occ_length s pos hocc
  have hSZ := SZ_eq
  have hnp := npos_eq
  obtain ⟨eol, heol⟩ : ∃ e, e = searchFrom (headIn lineEnds) s pos := ⟨_, rfl⟩
  obtain ⟨n, hn⟩ : ∃ e, e = searchFrom (headNotIn lineEnds) s eol := ⟨_, rfl⟩
  simp only [directive, find_first_of, find_first_not_of, EG_CORE_ASSERT, ← heol, ← hn] at h
  rcases searchFrom_spec (headIn lineEnds) s pos with ⟨e1, _⟩ | ⟨e1, e2, e3, e4⟩
  · rw [← heol] at e1
    simp [e1] at h
  · rw [← heol] at e1 e2 e3 e4
    have h5 : pos + 5 ≤ eol := by
      by_contra hc
      have := not_lineEnd_of_occ s pos (eol - pos) hocc (by omega)
      rw [show pos + (eol - pos) = eol by omega] at this
      simp [e3] at this
    have hne : eol ≠ npos := by omega
    have hbegin : (pos + typeTokenLength + 1) % SZ = pos + 6 := by
      have : typeTokenLength = 5 := by decide
      rw [this, SZ_eq]; omega
    rw [hbegin] at h
    rcases searchFrom_spec (headNotIn lineEnds) s eol with ⟨n1, _⟩ | ⟨n1, n2, n3, n4⟩
    · rw [← hn] at n1
      have hgt : npos > s.length := by omega
      simp only [n1, substr, hgt, if_true] at h
      repeat' split at h
      all_goals simp at h
    · rw [← hn] at n1 n2 n3 n4
      have hnn : n ≠ npos := by omega
      have hlt : eol < n := by
        rcases Nat.lt_or_ge eol n with h1 | h1
        · exact h1
        · have : n = eol := by omega
          subst this
          rw [headIn_drop _ _ _ e2] at e3
          rw [headNotIn_drop _ _ _ e2, e3] at n3
          simp at n3
      have hb : ¬ (pos + 6 > s.length) := by omega
      have hb2 : ¬ (n > s.length) := by omega
      simp only [hne, hnn, substr, hb, hb2, if_false, bne_iff_ne, ne_eq, not_false_eq_true,
        decide_True, if_true] at h
      refine ⟨eol, n, by simp [find_first_of, heol], by simp [find_first_not_of, hn], ?_⟩
      split at h
      · simp at h
      · rename_i stage hst
        split at h
        · simp at h
        · simp only [Except.ok.injEq, Prod.mk.injEq] at h
          obtain ⟨rfl, rfl, rfl⟩ := h
          exact ⟨rfl, h5, hlt, n2, hst, rfl⟩

theorem searchFrom_append_hit (P : List Char → Bool) (pre a b : List Char)
    (hskip : ∀ k, k < a.length → P (a.drop k ++ b) = false) (hP : P b = true) (hb : b ≠ []) :
    searchFrom P (pre ++ (a ++ b)) pre.length = pre.length + a.length := by
  simp only [searchFrom, List.drop_left, scan_skip P a b _ hskip, scan_hit P b _ hP hb]

theorem searchFrom_append_none (P : List Char → Bool) (pre a : List Char)
    (hskip : ∀ k, k < a.length → P (a.drop k) = false) :
    searchFrom P (pre ++ a) pre.length = npos := by
  have := scan_skip P a [] pre.length (by simpa using hskip)
  simp only [List.append_nil] at this
  simp only [searchFrom, List.drop_left, this, scan]

theorem headIn_skip (set a b : List Char) (h : ∀ c, c ∈ a → set.contains c = false)
    (k : Nat) (hk : k < a.length) : headIn set (a.drop k ++ b) = false := by
  rw [List.drop_eq_getElem_cons hk]
  exact h _ (List.getElem_mem _)

theorem no_straddle (body rest : List Char) (hb : ¬ typeToken <:+: body)
    (hr : rest = [] ∨ typeToken <+: rest) (k : Nat) (hk : k < body.length) :
    typeToken.isPrefixOf (body.drop k ++ rest) = false := by
  rw [Bool.eq_false_iff]
  intro hc
  rw [List.isPrefixOf_iff_prefix] at hc
  have hlen : (body.drop k).length = body.length - k := List.length_drop _ _
  by_cases h5 : 5 ≤ (body.drop k).length
  · have : typeToken <+: body.drop k :=
      List.prefix_of_prefix_length_le hc (List.prefix_append _ _) (by simpa [typeToken_eq] using h5)
    exact hb (this.isInfix.trans (List.drop_suffix _ _).isInfix)
  · have ha : body.drop k <+: typeToken :=
      List.prefix_of_prefix_length_le (List.prefix_append _ _) hc
        (by simp only [typeToken_eq, List.length_cons, List.length_nil]; omega)
    obtain ⟨t, ht⟩ := ha
    have htl : t.length = 5 - (body.drop k).length := by
      have := congrArg List.length ht
      simp only [List.length_append, typeToken_eq, List.length_cons, List.length_nil] at this
      omega
    have htr : t <+: rest := by
      rw [← ht] at hc
      exact (List.prefix_append_right_inj _).1 hc
    rcases hr with hr | hr
    · subst hr
      have := htr.length_le
      simp only [List.length_nil] at this
      omega
    · have htt : t <+: typeToken :=
        List.prefix_of_prefix_length_le htr hr
          (by simp only [typeToken_eq, List.length_cons, List.length_nil]; omega)
      have hd : t = typeToken.drop (body.drop k).length := by
        rw [← ht, List.drop_left]
      rw [hd, typeToken_eq] at htt
      have h1 : 1 ≤ (body.drop k).length := by omega
      have h4 : (body.drop k).length ≤ 4 := by omega
      generalize (body.drop k).length = d at htt h1 h4
      interval_cases d <;> simp [List.prefix_iff_eq_take] at htt

theorem directive_eval (s : List Char) (pos eol n g : Nat) (hlen : s.length < npos)
    (he : find_first_of s lineEnds pos = eol) (hb : pos + 6 ≤ s.length) (hel : eol < s.length)
    (ht : ShaderTypeFromString ((s.drop (pos + 6)).take ((eol + SZ - (pos + 6)) % SZ)) = .ok g)
    (hg : g ≠ 0) (hn : find_first_not_of s lineEnds eol = n) (hn2 : n ≤ s.length) :
    directive s pos =
      .ok (g, (s.drop n).take ((find s typeToken n + SZ - n) % SZ), find s typeToken n) := by
  have hSZ := SZ_eq
  have hnp := npos_eq
  have hbegin : (pos + typeTokenLength + 1) % SZ = pos + 6 := by
    have : typeTokenLength = 5 := by decide
    rw [this, SZ_eq]; omega
  have hne : eol ≠ npos := by omega
  have hnn : n ≠ npos := by omega
  have hb1 : ¬ (pos + 6 > s.length) := by omega
  have hb2 : ¬ (n > s.length) := by omega
  simp only [directive, he, hn, hbegin, EG_CORE_ASSERT, substr, hne, hnn, hb1, hb2, ht, hg,
    if_false, bne_iff_ne, ne_eq, not_false_eq_true, decide_True, if_true]

theorem keyword_chars : ∀ name ∈ stageKeywords, ∀ c ∈ typeToken ++ ' ' :: name,
    lineEnds.contains c = false := by decide

theorem keyword_stage (name : List Char) (h : name ∈ stageKeywords) :
    ∃ g, ShaderTypeFromString name = .ok g ∧ g ≠ 0 := by
  simp only [stageKeywords, List.mem_cons, List.mem_singleton, List.not_mem_nil, or_false] at h
  rcases h with h | h | h | h <;> subst h
  · exact ⟨GL_VERTEX_SHADER, by decide, by decide⟩
  · exact ⟨GL_FRAGMENT_SHADER, by decide, by decide⟩
  · exact ⟨GL_FRAGMENT_SHADER, by decide, by decide⟩
  · exact ⟨GL_GEOMETRY_SHADER, by decide, by decide⟩

theorem directive_block (pre rest : List Char) (b : Block) (hname : b.name ∈ stageKeywords)
    (hhead : headNotIn lineEnds b.body = true) (hno : ¬ typeToken <:+: b.body)
    (hr : rest = [] ∨ typeToken <+: rest) (hlen : (pre ++ (b.text ++ rest)).length < npos) :
    ∃ g, ShaderTypeFromString b.name = .ok g ∧
      directive (pre ++ (b.text ++ rest)) pre.length =
        .ok (g, b.body, if rest = [] then npos else pre.length + b.text.length) := by
  have hSZ := SZ_eq
  have hnp := npos_eq
  obtain ⟨g, hg, hg0⟩ := keyword_stage b.name hname
  refine ⟨g, hg, ?_⟩
  obtain ⟨s, hs⟩ : ∃ s, s = pre ++ (b.text ++ rest) := ⟨_, rfl⟩
  obtain ⟨A, hA⟩ : ∃ A, A = typeToken ++ ' ' :: b.name := ⟨_, rfl⟩
  have hAl : A.length = 6 + b.name.length := by
    simp [hA, typeToken_eq]; omega
  have hs1 : s = pre ++ (A ++ ('\n' :: (b.body ++ rest))) := by simp [hs, hA, Block.text]
  have hs2 : s = (pre ++ A) ++ (['\n'] ++ (b.body ++ rest)) := by simp [hs1]
  have hs3 : s = (pre ++ A ++ ['\n']) ++ (b.body ++ rest) := by simp [hs1]
  have hs4 : s = (pre ++ (typeToken ++ [' '])) ++ (b.name ++ ('\n' :: (b.body ++ rest))) := by
    simp [hs1, hA]
  have hbne : b.body ≠ [] := by
    intro h; rw [h] at hhead; simp [headNotIn] at hhead
  have hsl : s.length = pre.length + A.length + 1 + b.body.length + rest.length := by
    simp [hs1]; omega
  rw [← hs] at hlen ⊢
  have he : find_first_of s lineEnds pre.length = pre.length + A.length := by
    rw [find_first_of, hs1]
    refine searchFrom_append_hit _ pre A _ ?_ (by simp [headIn, lineEnds_eq]) (by simp)
    exact headIn_skip _ _ _ (by rw [hA]; exact keyword_chars _ hname)
  have hn : find_first_not_of s lineEnds (pre.length + A.length) = pre.length + A.length + 1 := by
    have := searchFrom_append_hit (headNotIn lineEnds) (pre ++ A) ['\n'] (b.body ++ rest)
      (by intro k hk
          have : k = 0 := by simpa using hk
          subst this
          simp [headNotIn, lineEnds_eq])
      (by cases hb : b.body with
          | nil => exact absurd hb hbne
          | cons c cs => rw [hb] at hhead; simpa [headNotIn] using hhead)
      (by simp [hbne])
    rw [find_first_not_of, hs2]
    simpa using this
  have hf : find s typeToken (pre.length + A.length + 1) =
      if rest = [] then npos else pre.length + b.text.length := by
    have hbl : b.text.length = A.length + 1 + b.body.length := by
      simp [Block.text, hA]; omega
    rw [find]
    by_cases hrest : rest = []
    · rw [if_pos hrest]
      subst hrest
      have := searchFrom_append_none (fun suf => typeToken.isPrefixOf suf) (pre ++ A ++ ['\n'])
        b.body (by simpa using no_straddle b.body [] hno (Or.inl rfl))
      rw [hs3]
      simpa using this
    · rw [if_neg hrest]
      have hr2 : typeToken <+: rest := hr.resolve_left hrest
      have := searchFrom_append_hit (fun suf => typeToken.isPrefixOf suf) (pre ++ A ++ ['\n'])
        b.body rest (no_straddle b.body rest hno hr) (by simpa using hr2) hrest
      rw [hs3]
      simp only [List.length_append, List.length_singleton] at this
      rw [this, hbl]; omega
  have ht : (s.drop (pre.length + 6)).take ((pre.length + A.length + SZ - (pre.length + 6)) % SZ)
      = b.name := by
    have h1 : pre.length + 6 = (pre ++ (typeToken ++ [' '])).length := by simp [typeToken_eq]
    have h2 : (pre.length + A.length + SZ - (pre.length + 6)) % SZ = b.name.length := by
      rw [hAl, SZ_eq]; omega
    rw [h2, h1, hs4, List.drop_left, List.take_left]
  have := directive_eval s pre.length (pre.length + A.length) (pre.length + A.length + 1) g hlen
    he (by omega) (by omega) (by rw [ht]; exact hg) hg0 hn (by omega)
  rw [this, hf]
  have hsrc : (s.drop (pre.length + A.length + 1)).take
      (((if rest = [] then npos else pre.length + b.text.length) + SZ
        - (pre.length + A.length + 1)) % SZ) = b.body := by
    have h1 : pre.length + A.length + 1 = (pre ++ A ++ ['\n']).length := by
      simp only [List.length_append, List.length_singleton]
    have hbl : b.text.length = A.length + 1 + b.body.length := by
      simp [Block.text, hA]; omega
    by_cases hrest : rest = []
    · rw [if_pos hrest, h1, hs3, List.drop_left]
      subst hrest
      rw [List.append_nil]
      apply List.take_of_length_le
      rw [← h1, SZ_eq, npos_eq]
      omega
    · rw [if_neg hrest, h1, hs3, List.drop_left, ← h1]
      have : (pre.length + b.text.length + SZ - (pre.length + A.length + 1)) % SZ
          = b.body.length := by rw [hbl, SZ_eq]; omega
      rw [this, List.take_left]
  rw [hsrc]

/-! ## Proofs: the stage map -/

theorem lookup_cons_ite (m : ShaderMap) (k2 : Nat) (v2 : List Char) (k1 : Nat) :
    List.lookup k1 ((k2, v2) :: m) = if k1 = k2 then some v2 else List.lookup k1 m := by
  by_cases h : k1 = k2
  · subst h; simp [List.lookup]
  · have : (k1 == k2) = false := by simpa using h
    simp [List.lookup, this, h]

theorem get?_set (m : ShaderMap) (k : Nat) (v : List Char) (k1 : Nat) :
    (ShaderMap.set m k v).get? k1 = if k1 = k then some v else m.get? k1 := by
  induction m with
  | nil => simp [ShaderMap.set, ShaderMap.get?, lookup_cons_ite]
  | cons e m ih =>
    obtain ⟨k2, v2⟩ := e
    simp only [ShaderMap.get?] at ih
    by_cases h2 : k2 = k
    · subst h2
      by_cases h : k1 = k2 <;> simp [ShaderMap.set, ShaderMap.get?, lookup_cons_ite, h]
    · by_cases h : k1 = k
      · subst h
        simp [ShaderMap.set, ShaderMap.get?, lookup_cons_ite, h2, ih, Ne.symm h2]
      · by_cases h3 : k1 = k2 <;>
          simp [ShaderMap.set, ShaderMap.get?, lookup_cons_ite, h2, h3, h, ih]

theorem length_set (m : ShaderMap) (k : Nat) (v : List Char) :
    (ShaderMap.set m k v).length = if m.get? k = none then m.length + 1 else m.length := by
  induction m with
  | nil => simp [ShaderMap.set, ShaderMap.get?]
  | cons e m ih =>
    obtain ⟨k2, v2⟩ := e
    simp only [ShaderMap.get?] at ih
    by_cases h2 : k2 = k
    · subst h2
      simp [ShaderMap.set, ShaderMap.get?, lookup_cons_ite]
    · simp only [ShaderMap.set, h2, if_false, List.length_cons, ih, ShaderMap.get?,
        lookup_cons_ite, Ne.symm h2]
      split <;> rfl

theorem fold_set_spec (bs : List Block) : ∀ (m0 : ShaderMap),
    bs.Pairwise (fun a b => stageOf a.name ≠ stageOf b.name) →
    (∀ b ∈ bs, m0.get? (stageOf b.name) = none) →
    (bs.foldl (fun m b => ShaderMap.set m (stageOf b.name) b.body) m0).length
        = m0.length + bs.length ∧
    (∀ b ∈ bs, (bs.foldl (fun m b => ShaderMap.set m (stageOf b.name) b.body) m0).get?
        (stageOf b.name) = some b.body) ∧
    (∀ k, (∀ b ∈ bs, stageOf b.name ≠ k) →
      (bs.foldl (fun m b => ShaderMap.set m (stageOf b.name) b.body) m0).get? k = m0.get? k) := by
  induction bs with
  | nil => intro m0 _ _; simp
  | cons b bs ih =>
    intro m0 hp hm
    rw [List.pairwise_cons] at hp
    have hm1 : ∀ b1 ∈ bs, (ShaderMap.set m0 (stageOf b.name) b.body).get? (stageOf b1.name)
        = none := by
      intro b1 hb1
      rw [get?_set, if_neg (fun h => hp.1 b1 hb1 h.symm)]
      exact hm b1 (List.mem_cons_of_mem _ hb1)
    obtain ⟨i1, i2, i3⟩ := ih (ShaderMap.set m0 (stageOf b.name) b.body) hp.2 hm1
    simp only [List.foldl_cons]
    refine ⟨?_, ?_, ?_⟩
    · rw [i1, length_set, if_pos (hm b (List.mem_cons_self _ _)), List.length_cons]; omega
    · intro b1 hb1
      rcases List.mem_cons.1 hb1 with h | h
      · subst h
        rw [i3 _ (fun b2 hb2 h => hp.1 b2 hb2 h.symm), get?_set, if_pos rfl]
      · exact i2 b1 h
    · intro k hk
      rw [i3 k (fun b1 hb1 => hk b1 (List.mem_cons_of_mem _ hb1)), get?_set,
        if_neg (fun h => hk b (List.mem_cons_self _ _) h.symm)]

/-! ## Proofs: splitting a buffer made of blocks -/

theorem concatBlocks_eq_nil (bs : List Block) : concatBlocks bs = [] ↔ bs = [] := by
  cases bs with
  | nil => simp [concatBlocks]
  | cons b bs => simp [concatBlocks, Block.text, typeToken_eq]

theorem concatBlocks_starts (bs : List Block) :
    concatBlocks bs = [] ∨ typeToken <+: concatBlocks bs := by
  cases bs with
  | nil => left; rfl
  | cons b bs =>
    right
    exact ⟨' ' :: b.name ++ '\n' :: b.body ++ concatBlocks bs, by simp [concatBlocks, Block.text]⟩

theorem stageOf_eq (name : List Char) (g : Nat) (h : ShaderTypeFromString name = .ok g) :
    stageOf name = g := by
  simp [stageOf, h]

theorem splitLoop_blocks (bs : List Block) : ∀ (pre : List Char) (m0 : ShaderMap) (fuel : Nat),
    (∀ b ∈ bs, b.name ∈ stageKeywords ∧ headNotIn lineEnds b.body = true ∧
      ¬ typeToken <:+: b.body) →
    (pre ++ concatBlocks bs).length < npos → bs.length < fuel →
    splitLoop (pre ++ concatBlocks bs) fuel (if bs = [] then npos else pre.length) m0
      = .ok (bs.foldl (fun m b => ShaderMap.set m (stageOf b.name) b.body) m0) := by
  induction bs with
  | nil =>
    intro pre m0 fuel _ _ hf
    cases fuel with
    | zero => omega
    | succ f => simp [splitLoop]
  | cons b bs ih =>
    intro pre m0 fuel hb hlen hf
    cases fuel with
    | zero => omega
    | succ f =>
      obtain ⟨h1, h2, h3⟩ := hb b (List.mem_cons_self _ _)
      have hlen1 : (pre ++ (b.text ++ concatBlocks bs)).length < npos := by
        simpa [concatBlocks] using hlen
      obtain ⟨g, hg, hd⟩ := directive_block pre (concatBlocks bs) b h1 h2 h3
        (concatBlocks_starts bs) hlen1
      have hpos : pre.length ≠ npos := by
        have : pre.length ≤ (pre ++ (b.text ++ concatBlocks bs)).length := by simp
        omega
      have hs : pre ++ concatBlocks (b :: bs) = pre ++ (b.text ++ concatBlocks bs) := rfl
      have hs2 : pre ++ (b.text ++ concatBlocks bs) = (pre ++ b.text) ++ concatBlocks bs := by
        simp
      have := ih (pre ++ b.text) (ShaderMap.set m0 g b.body) f
        (fun b1 hb1 => hb b1 (List.mem_cons_of_mem _ hb1)) (by rw [← hs2]; exact hlen1)
        (by simpa using hf)
      simp only [concatBlocks_eq_nil] at hd
      rw [hs, if_neg (by simp), splitLoop, if_neg hpos, hd]
      simp only [List.foldl_cons, stageOf_eq _ _ hg]
      rw [← this, hs2, List.length_append]

/-! ## Proofs: every occurrence of the token is reached -/

theorem slice_split (s : List Char) (a b c : Nat) (hab : a ≤ b) (hbc : b ≤ c) :
    (s.drop a).take (c - a) = (s.drop a).take (b - a) ++ (s.drop b).take (c - b) := by
  have h1 : c - a = (b - a) + (c - b) := by omega
  rw [h1, List.take_add, List.drop_drop, show a + (b - a) = b by omega]

theorem ShaderTypeFromString_ok (t : List Char) (g : Nat) (h : ShaderTypeFromString t = .ok g) :
    t ∈ stageKeywords := by
  unfold ShaderTypeFromString at h
  simp only [stageKeywords, List.mem_cons, List.mem_singleton, List.not_mem_nil, or_false]
  split at h
  · left; assumption
  · split at h
    · rename_i h2
      rcases h2 with h2 | h2
      · right; left; exact h2
      · right; right; left; exact h2
    · split at h
      · right; right; right; assumption
      · simp [EG_CORE_ASSERT] at h

theorem keyword_no_type : ∀ kw ∈ stageKeywords, ¬ ['t', 'y', 'p', 'e'] <:+: kw := by decide

theorem no_occ_in_line (s : List Char) (pos eol p g : Nat) (hlen : s.length < npos)
    (hocc : typeToken <+: s.drop pos) (he2 : eol < s.length)
    (he3 : headIn lineEnds (s.drop eol) = true)
    (ht : ShaderTypeFromString ((s.drop (pos + 6)).take ((eol + SZ - (pos + 6)) % SZ)) = .ok g)
    (hp : typeToken <+: s.drop p) (h1 : pos < p) (h2 : p < eol) : False := by
  have hSZ := SZ_eq
  have hnp := npos_eq
  by_cases hlt : p < pos + 5
  · obtain ⟨t, ht1⟩ := hocc
    have hd : s.drop p = (typeToken ++ t).drop (p - pos) := by
      rw [ht1, List.drop_drop, show pos + (p - pos) = p by omega]
    rw [hd, typeToken_eq] at hp
    have hk1 : 1 ≤ p - pos := by omega
    have hk4 : p - pos ≤ 4 := by omega
    generalize p - pos = k at hp hk1 hk4
    interval_cases k <;> simp [List.prefix_iff_eq_take] at hp
  · have h5 : p + 5 ≤ eol := by
      by_contra hc
      have := not_lineEnd_of_occ s p (eol - p) hp (by omega)
      rw [show p + (eol - p) = eol by omega, he3] at this
      simp at this
    have hcnt : (eol + SZ - (pos + 6)) % SZ = eol - (pos + 6) := by
      rw [SZ_eq]; omega
    rw [hcnt, slice_split s (pos + 6) (p + 1) eol (by omega) (by omega),
      slice_split s (p + 1) (p + 5) eol (by omega) (by omega)] at ht
    have hty : (s.drop (p + 1)).take (p + 5 - (p + 1)) = ['t', 'y', 'p', 'e'] := by
      obtain ⟨t, ht1⟩ := hp
      rw [← List.drop_drop, ← ht1, typeToken_eq]
      simp [show p + 5 - (p + 1) = 4 by omega]
    rw [hty] at ht
    exact keyword_no_type _ (ShaderTypeFromString_ok _ _ ht) ⟨_, _, (List.append_assoc _ _ _)⟩

theorem headNotIn_occ (s : List Char) (p : Nat) (hp : typeToken <+: s.drop p) :
    headNotIn lineEnds (s.drop p) = true := by
  obtain ⟨t, ht⟩ := hp
  rw [← ht, typeToken_eq, lineEnds_eq]
  simp [headNotIn]

theorem ShaderTypeFromString_error (t : List Char) (e : ShaderError)
    (h : ShaderTypeFromString t = .error e) : e = .assertion "Unknown shader type" := by
  unfold ShaderTypeFromString at h
  split at h
  · simp at h
  · split at h
    · simp at h
    · split at h
      · simp at h
      · simp only [EG_CORE_ASSERT, Bool.false_eq_true, if_false, Except.error.injEq] at h
        exact h.symm

/-- The ways the loop body can fail at an occurrence of the token: an assertion, or the
`substr` at `nextLinePos = npos`. -/
theorem directive_error (s : List Char) (pos : Nat) (e : ShaderError) (hlen : s.length < npos)
    (hocc : typeToken <+: s.drop pos) (h : directive s pos = .error e) :
    (∃ msg, e = .assertion msg) ∨
    (e = .out_of_range ∧ find_first_of s lineEnds pos < s.length ∧
      find_first_not_of s lineEnds (find_first_of s lineEnds pos) = npos ∧
      ∃ g, ShaderTypeFromString ((s.drop (pos + 6)).take
        ((find_first_of s lineEnds pos + SZ - (pos + 6)) % SZ)) = .ok g) := by
  have hp5 := occ_length s pos hocc
  have hSZ := SZ_eq
  have hnp := npos_eq
  obtain ⟨eol, heol⟩ : ∃ e, e = searchFrom (headIn lineEnds) s pos := ⟨_, rfl⟩
  obtain ⟨n, hn⟩ : ∃ e, e = searchFrom (headNotIn lineEnds) s eol := ⟨_, rfl⟩
  simp only [directive, find_first_of, find_first_not_of, EG_CORE_ASSERT, ← heol, ← hn] at h ⊢
  rcases searchFrom_spec (headIn lineEnds) s pos with ⟨e1, _⟩ | ⟨e1, e2, e3, e4⟩
  · rw [← heol] at e1
    simp only [e1, bne_self_eq_false, Bool.false_eq_true, if_false, Except.error.injEq] at h
    exact Or.inl ⟨_, h.symm⟩
  · rw [← heol] at e1 e2 e3 e4
    have h5 : pos + 5 ≤ eol := by
      by_contra hc
      have := not_lineEnd_of_occ s pos (eol - pos) hocc (by omega)
      rw [show pos + (eol - pos) = eol by omega] at this
      simp [e3] at this
    have hne : eol ≠ npos := by omega
    have hbegin : (pos + typeTokenLength + 1) % SZ = pos + 6 := by
      have : typeTokenLength = 5 := by decide
      rw [this, SZ_eq]; omega
    have hb : ¬ (pos + 6 > s.length) := by omega
    rw [hbegin] at h
    simp only [hne, substr, hb, if_false, bne_iff_ne, ne_eq, not_false_eq_true,
      decide_True, if_true] at h
    split at h
    · rename_i e1 hst
      simp only [Except.error.injEq] at h
      subst h
      exact Or.inl ⟨_, ShaderTypeFromString_error _ _ hst⟩
    · rename_i stage hst
      split at h
      · rename_i e2 hz
        simp only [Except.error.injEq] at h
        subst h
        left
        split at hz
        · simp at hz
        · simp only [Except.error.injEq] at hz
          exact ⟨_, hz.symm⟩
      · split at h
        · rename_i e3 hgt
          simp only [Except.error.injEq] at h
          subst h
          split at hgt
          · rename_i hgt2
            simp only [Except.error.injEq] at hgt
            right
            refine ⟨hgt.symm, e2, ?_, stage, hst⟩
            rcases searchFrom_spec (headNotIn lineEnds) s eol with ⟨n1, _⟩ | ⟨n1, n2, n3, n4⟩
            · rw [hn]; exact n1
            · rw [← hn] at n2; omega
          · simp at hgt
        · simp at h

theorem occ_after_directive (s : List Char) (pos p g : Nat) (hlen : s.length < npos)
    (hocc : typeToken <+: s.drop pos) (he : find_first_of s lineEnds pos < s.length)
    (ht : ShaderTypeFromString ((s.drop (pos + 6)).take
      ((find_first_of s lineEnds pos + SZ - (pos + 6)) % SZ)) = .ok g)
    (hp : typeToken <+: s.drop p) (hlt : pos < p) :
    find_first_not_of s lineEnds (find_first_of s lineEnds pos) ≤ p ∧
      find_first_not_of s lineEnds (find_first_of s lineEnds pos) < s.length := by
  have hnp := npos_eq
  have hpl := occ_length s p hp
  obtain ⟨eol, heol⟩ : ∃ e, e = find_first_of s lineEnds pos := ⟨_, rfl⟩
  rw [← heol] at he ht ⊢
  have hge : eol ≤ p := by
    rcases searchFrom_spec (headIn lineEnds) s pos with ⟨e1, _⟩ | ⟨e1, e2, e3, e4⟩
    · rw [find_first_of] at heol; omega
    · rw [← find_first_of, ← heol] at e3
      by_contra hc
      exact no_occ_in_line s pos eol p g hlen hocc he e3 ht hp hlt (by omega)
  have hpn := headNotIn_occ s p hp
  rcases searchFrom_spec (headNotIn lineEnds) s eol with ⟨n1, n2⟩ | ⟨n1, n2, n3, n4⟩
  · have := n2 p hge (by omega)
    rw [hpn] at this
    exact absurd this (by simp)
  · rw [← find_first_not_of] at n1 n2 n3 n4
    refine ⟨?_, n2⟩
    by_contra hc
    have := n4 p hge (by omega)
    rw [hpn] at this
    exact absurd this (by simp)

theorem find_next_occ (s : List Char) (n p : Nat) (hlen : s.length < npos)
    (hp : typeToken <+: s.drop p) (hnp : n ≤ p) :
    find s typeToken n ≠ npos ∧ find s typeToken n ≤ p ∧ n ≤ find s typeToken n ∧
      typeToken <+: s.drop (find s typeToken n) := by
  have hnpos := npos_eq
  have hpl := occ_length s p hp
  have hpb : typeToken.isPrefixOf (s.drop p) = true := List.isPrefixOf_iff_prefix.2 hp
  rcases searchFrom_spec (fun suf => typeToken.isPrefixOf suf) s n with ⟨_, h2⟩ | ⟨h1, h2, h3, h4⟩
  · have := h2 p hnp (by omega)
    simp only at this
    rw [hpb] at this
    exact absurd this (by simp)
  · rw [← find] at h1 h2 h3 h4
    refine ⟨by omega, ?_, h1, List.isPrefixOf_iff_prefix.1 h3⟩
    by_contra hc
    have := h4 p hnp (by omega)
    simp only at this
    rw [hpb] at this
    exact absurd this (by simp)

theorem find_occ_or_npos (s : List Char) (n : Nat) :
    find s typeToken n = npos ∨ (n ≤ find s typeToken n ∧ typeToken <+: s.drop (find s typeToken n)) := by
  rcases searchFrom_spec (fun suf => typeToken.isPrefixOf suf) s n with ⟨h1, _⟩ | ⟨h1, _, h3, _⟩
  · left; exact h1
  · right; exact ⟨h1, List.isPrefixOf_iff_prefix.1 h3⟩

/-- Progress of the loop: after a successful run of the body the next position is `npos`
or a later occurrence of the token. -/
theorem directive_progress (s : List Char) (pos g : Nat) (src : List Char) (pos1 : Nat)
    (hlen : s.length < npos) (hocc : typeToken <+: s.drop pos)
    (h : directive s pos = .ok (g, src, pos1)) :
    pos1 = npos ∨ (pos < pos1 ∧ typeToken <+: s.drop pos1) := by
  obtain ⟨eol, n, _, _, h3, h4, h5, _, _, _⟩ := directive_spec s pos g src pos1 hlen hocc h
  rcases find_occ_or_npos s n with hf | ⟨hf1, hf2⟩
  · left; rw [h3]; exact hf
  · right; rw [h3]; exact ⟨by omega, hf2⟩

/-- No occurrence of the token lies between a directive and the next position of the loop. -/
theorem directive_next (s : List Char) (pos g : Nat) (src : List Char) (pos1 p : Nat)
    (hlen : s.length < npos) (hocc : typeToken <+: s.drop pos)
    (h : directive s pos = .ok (g, src, pos1)) (hp : typeToken <+: s.drop p) (hlt : pos < p) :
    pos1 ≠ npos ∧ pos1 ≤ p ∧ pos < pos1 ∧ typeToken <+: s.drop pos1 := by
  obtain ⟨eol, n, h1, h2, h3, h4, h5, h6, h7, _⟩ := directive_spec s pos g src pos1 hlen hocc h
  subst h1
  have := occ_after_directive s pos p g hlen hocc (by omega) h7 hp hlt
  rw [← h2] at this
  obtain ⟨a, b, c, d⟩ := find_next_occ s n p hlen hp this.1
  rw [← h3] at a b c d
  exact ⟨a, b, by omega, d⟩

theorem find_zero_occ (s : List Char) (p : Nat) (hlen : s.length < npos)
    (hp : typeToken <+: s.drop p) :
    find s typeToken 0 ≠ npos ∧ find s typeToken 0 ≤ p ∧
      typeToken <+: s.drop (find s typeToken 0) := by
  obtain ⟨a, b, _, d⟩ := find_next_occ s 0 p hlen hp (Nat.zero_le _)
  exact ⟨a, b, d⟩

/-- A directive on which the loop body fails an assertion makes the whole loop fail an
assertion, from any earlier directive the loop stands at. -/
theorem splitLoop_rejects (s : List Char) (p : Nat) (msg : String) (hlen : s.length < npos)
    (hp : typeToken <+: s.drop p) (hbad : directive s p = .error (.assertion msg)) :
    ∀ (fuel pos : Nat) (m0 : ShaderMap), typeToken <+: s.drop pos → pos ≤ p →
      s.length < pos + fuel →
      ∃ msg1, splitLoop s fuel pos m0 = .error (.assertion msg1) := by
  have hnp := npos_eq
  intro fuel
  induction fuel with
  | zero =>
    intro pos m0 hocc _ hf
    have := occ_length s pos hocc
    omega
  | succ f ih =>
    intro pos m0 hocc hle hf
    have hpl := occ_length s pos hocc
    have hpos : pos ≠ npos := by omega
    rw [splitLoop, if_neg hpos]
    rcases Nat.eq_or_lt_of_le hle with heq | hlt
    · subst heq
      rw [hbad]
      exact ⟨msg, rfl⟩
    · cases hd : directive s pos with
      | error e =>
        rcases directive_error s pos e hlen hocc hd with ⟨msg1, h1⟩ | ⟨_, h2, h3, g, h4⟩
        · exact ⟨msg1, by rw [h1]⟩
        · have := occ_after_directive s pos p g hlen hocc h2 h4 hp hlt
          omega
      | ok r =>
        obtain ⟨g, src, pos1⟩ := r
        obtain ⟨_, h2, h3, h4⟩ := directive_next s pos g src pos1 p hlen hocc hd hp hlt
        exact ih pos1 _ h4 h2 (by omega)

theorem keyword_no_lineEnd : ∀ kw ∈ stageKeywords, ∀ x ∈ kw, lineEnds.contains x = false := by
  decide

theorem bad_directive (pre name rest : List Char) (c : Char)
    (hname : ∀ x ∈ name, x ≠ '\r' ∧ x ≠ '\n')
    (hrest : rest = [] ∨ ∃ t r, rest = t :: r ∧ (t = '\r' ∨ t = '\n'))
    (hbad : name ∉ stageKeywords)
    (hlen : (pre ++ (typeToken ++ c :: (name ++ rest))).length < npos) :
    ∃ msg, directive (pre ++ (typeToken ++ c :: (name ++ rest))) pre.length
      = .error (.assertion msg) := by
  have hSZ := SZ_eq
  have hnp := npos_eq
  obtain ⟨s, hs⟩ : ∃ s, s = pre ++ (typeToken ++ c :: (name ++ rest)) := ⟨_, rfl⟩
  rw [← hs] at hlen ⊢
  have hocc : typeToken <+: s.drop pre.length := by
    rw [hs, List.drop_left]; exact List.prefix_append _ _
  have hsl : s.length = pre.length + 6 + name.length + rest.length := by
    simp [hs, typeToken_eq]; omega
  have hd6 : s.drop (pre.length + 6) = name ++ rest := by
    have : s = (pre ++ (typeToken ++ [c])) ++ (name ++ rest) := by simp [hs]
    rw [this, show pre.length + 6 = (pre ++ (typeToken ++ [c])).length by simp [typeToken_eq],
      List.drop_left]
  -- the type read at this directive is no keyword
  have key : ∀ g, find_first_of s lineEnds pre.length < s.length →
      ShaderTypeFromString ((s.drop (pre.length + 6)).take
        ((find_first_of s lineEnds pre.length + SZ - (pre.length + 6)) % SZ)) = .ok g →
      False := by
    intro g hel ht
    have hkw := ShaderTypeFromString_ok _ _ ht
    rw [hd6] at hkw
    by_cases hc : lineEnds.contains c = true
    · have he : find_first_of s lineEnds pre.length = pre.length + 5 := by
        apply searchFrom_eq_of _ _ _ _ (by omega) (by omega)
        · have : s = (pre ++ typeToken) ++ (c :: (name ++ rest)) := by simp [hs]
          rw [this, show pre.length + 5 = (pre ++ typeToken).length by simp [typeToken_eq],
            List.drop_left]
          exact hc
        · intro k hk1 hk2
          have := not_lineEnd_of_occ s pre.length (k - pre.length) hocc (by omega)
          rwa [show pre.length + (k - pre.length) = k by omega] at this
      have hcnt : (pre.length + 5 + SZ - (pre.length + 6)) % SZ = SZ - 1 := by
        rw [SZ_eq]; omega
      rw [he, hcnt, List.take_of_length_le
        (by simp only [List.length_append]; omega)] at hkw
      rcases hrest with hr | ⟨t, r, hr, ht1⟩
      · subst hr
        exact hbad (by simpa using hkw)
      · have := keyword_no_lineEnd _ hkw t (by simp [hr])
        rw [lineEnds_eq] at this
        rcases ht1 with h | h <;> subst h <;> simp at this
    · have hA : ∀ x ∈ typeToken ++ c :: name, lineEnds.contains x = false := by
        intro x hx
        rcases List.mem_append.1 hx with h | h
        · rw [typeToken_eq] at h; rw [lineEnds_eq]
          simp only [List.mem_cons, List.mem_singleton, List.not_mem_nil, or_false] at h
          rcases h with h | h | h | h | h <;> subst h <;> decide
        · rcases List.mem_cons.1 h with h | h
          · subst h; simpa using hc
          · have := hname x h
            rw [lineEnds_eq]
            simp [this.1, this.2]
      rcases hrest with hr | ⟨t, r, hr, ht1⟩
      · subst hr
        have : find_first_of s lineEnds pre.length = npos := by
          have hs1 : s = pre ++ (typeToken ++ c :: name) := by simp [hs]
          rw [find_first_of, hs1]
          apply searchFrom_append_none
          intro k hk
          simpa using headIn_skip lineEnds _ [] hA k hk
        omega
      · have he : find_first_of s lineEnds pre.length
            = pre.length + (typeToken ++ c :: name).length := by
          have hs1 : s = pre ++ ((typeToken ++ c :: name) ++ rest) := by simp [hs]
          rw [find_first_of, hs1]
          apply searchFrom_append_hit _ _ _ _ (headIn_skip lineEnds _ _ hA)
          · rw [hr, lineEnds_eq]; rcases ht1 with h | h <;> subst h <;> simp [headIn]
          · simp [hr]
        have hcnt : (pre.length + (typeToken ++ c :: name).length + SZ - (pre.length + 6)) % SZ
            = name.length := by
          simp only [List.length_append, typeToken_eq, List.length_cons, List.length_nil]
          rw [SZ_eq]; omega
        rw [he, hcnt, List.take_left] at hkw
        exact hbad hkw
  cases hd : directive s pre.length with
  | error e =>
    rcases directive_error s pre.length e hlen hocc hd with ⟨msg1, h1⟩ | ⟨_, h2, _, g, h4⟩
    · exact ⟨msg1, by rw [h1]⟩
    · exact (key g h2 h4).elim
  | ok r =>
    obtain ⟨g, src, pos1⟩ := r
    obtain ⟨eol, n, h1, _, _, _, h5, h6, h7, _⟩ := directive_spec s pre.length g src pos1 hlen hocc hd
    subst h1
    exact (key g (by omega) h7).elim

/-! ## Proofs: what the loop stores -/

theorem tokenAt_iff (s : List Char) (p : Nat) : tokenAt s p = true ↔ typeToken <+: s.drop p := by
  simp [tokenAt]

theorem headIn_eq_isLineEndAt (s : List Char) (k : Nat) :
    headIn lineEnds (s.drop k) = isLineEndAt s k := by
  by_cases h : k < s.length
  · rw [headIn_drop _ _ _ h, isLineEndAt, List.getElem?_eq_getElem h, lineEnds_eq]
    generalize s[k] = c
    cases h1 : (c == '\r') <;> cases h2 : (c == '\n') <;>
      simp [List.contains, List.elem, h1, h2]
  · have h1 : s.drop k = [] := List.drop_eq_nil_of_le (by omega)
    have h2 : s[k]? = none := List.getElem?_eq_none (by omega)
    simp [h1, headIn, isLineEndAt, h2]

theorem headNotIn_eq_isLineEndAt (s : List Char) (k : Nat) (h : k < s.length) :
    headNotIn lineEnds (s.drop k) = !isLineEndAt s k := by
  rw [← headIn_eq_isLineEndAt, headIn_drop _ _ _ h, headNotIn_drop _ _ _ h]

theorem stageAt_of_ok (s : List Char) (p g : Nat) (src : List Char) (p1 : Nat)
    (h : directive s p = .ok (g, src, p1)) : stageAt s p = some g := by
  simp [stageAt, h]

/-- Directives that name other stages leave the entry of stage `g` as it was. -/
theorem splitLoop_preserve (s : List Char) (g : Nat) (hlen : s.length < npos) :
    ∀ (fuel pos : Nat) (m1 m : ShaderMap), splitLoop s fuel pos m1 = .ok m →
      (pos = npos ∨ typeToken <+: s.drop pos) →
      (∀ p1, pos ≤ p1 → typeToken <+: s.drop p1 → stageAt s p1 ≠ some g) →
      m.get? g = m1.get? g := by
  intro fuel
  induction fuel with
  | zero => intro pos m1 m h; simp [splitLoop] at h
  | succ f ih =>
    intro pos m1 m h hpos hno
    rw [splitLoop] at h
    by_cases hp : pos = npos
    · rw [if_pos hp] at h
      simp only [Except.ok.injEq] at h
      rw [h]
    · rw [if_neg hp] at h
      have hocc := hpos.resolve_left hp
      cases hd : directive s pos with
      | error e => rw [hd] at h; simp at h
      | ok r =>
        obtain ⟨g1, src1, pos1⟩ := r
        rw [hd] at h
        simp only at h
        have hne : g1 ≠ g := by
          intro heq
          exact hno pos (Nat.le_refl _) hocc (by rw [stageAt_of_ok s pos g1 src1 pos1 hd, heq])
        have hprog := directive_progress s pos g1 src1 pos1 hlen hocc hd
        have := ih pos1 _ m h (hprog.imp id (fun x => x.2))
          (fun p1 hp1 ho => by
            rcases hprog with hq | hq
            · have := occ_length s p1 ho
              have hnp := npos_eq
              omega
            · exact hno p1 (by omega) ho)
        rw [this, get?_set, if_neg (fun h => hne h.symm)]

/-- Every occurrence of the token from the current position on is run through the loop
body, and its source stays in the map unless a later directive names the same stage. -/
theorem splitLoop_get (s : List Char) (p : Nat) (hlen : s.length < npos)
    (hp : typeToken <+: s.drop p) :
    ∀ (fuel pos : Nat) (m0 m : ShaderMap), splitLoop s fuel pos m0 = .ok m →
      typeToken <+: s.drop pos → pos ≤ p →
      ∃ g src p1, directive s p = .ok (g, src, p1) ∧
        ((∀ p2, p < p2 → typeToken <+: s.drop p2 → stageAt s p2 ≠ some g) →
          m.get? g = some src) := by
  have hnp := npos_eq
  intro fuel
  induction fuel with
  | zero => intro pos m0 m h; simp [splitLoop] at h
  | succ f ih =>
    intro pos m0 m h hocc hle
    have hpl := occ_length s pos hocc
    rw [splitLoop, if_neg (by omega)] at h
    cases hd : directive s pos with
    | error e => rw [hd] at h; simp at h
    | ok r =>
      obtain ⟨g1, src1, pos1⟩ := r
      rw [hd] at h
      simp only at h
      rcases Nat.eq_or_lt_of_le hle with heq | hlt
      · subst heq
        refine ⟨g1, src1, pos1, hd, fun hno => ?_⟩
        have hprog := directive_progress s pos g1 src1 pos1 hlen hocc hd
        have := splitLoop_preserve s g1 hlen f pos1 _ m h (hprog.imp id (fun x => x.2))
          (fun p1 hp1 ho => by
            rcases hprog with hq | hq
            · have := occ_length s p1 ho
              omega
            · exact hno p1 (by omega) ho)
        rw [this, get?_set, if_pos rfl]
      · obtain ⟨_, h2, _, h4⟩ := directive_next s pos g1 src1 pos1 p hlen hocc hd hp hlt
        exact ih pos1 _ m h h4 h2

/-- The loop ends within its fuel: every run of the body moves `pos` forward. -/
theorem splitLoop_fuel (s : List Char) (hlen : s.length < npos) :
    ∀ (fuel pos : Nat) (m0 : ShaderMap), (pos = npos ∨ typeToken <+: s.drop pos) →
      (pos = npos ∨ s.length < pos + fuel) → 0 < fuel →
      splitLoop s fuel pos m0 ≠ .error .fuel := by
  intro fuel
  induction fuel with
  | zero => intro pos m0 _ _ h; omega
  | succ f ih =>
    intro pos m0 hpos hf _
    rw [splitLoop]
    by_cases hp : pos = npos
    · rw [if_pos hp]; simp
    · rw [if_neg hp]
      have hocc := hpos.resolve_left hp
      have hf1 := hf.resolve_left hp
      have hpl := occ_length s pos hocc
      cases hd : directive s pos with
      | error e =>
        rcases directive_error s pos e hlen hocc hd with ⟨msg, h1⟩ | ⟨h1, _⟩
        · rw [h1]; simp
        · rw [h1]; simp
      | ok r =>
        obtain ⟨g1, src1, pos1⟩ := r
        have hprog := directive_progress s pos g1 src1 pos1 hlen hocc hd
        refine ih pos1 _ (hprog.imp id (fun x => x.2)) (hprog.imp id (fun x => by omega))
          (by omega)

/-- The splitter never stops for lack of fuel. -/
theorem splitShaderSource_total (s : List Char) (hlen : s.length < npos) :
    splitShaderSource s ≠ .error .fuel := by
  refine splitLoop_fuel s hlen _ _ [] ((find_occ_or_npos s 0).imp id (fun x => x.2))
    (Or.inr (by omega)) (by omega)

/-! ## Claims about the shader-source splitter -/

/-- C2: a buffer made of `k ≥ 1` blocks `#type <name>\n<body>`, whose names are recognised
keywords denoting pairwise distinct stages and whose bodies are non-empty, do not start with
a line terminator and do not contain `#type`, is split into a stage map with exactly `k`
entries, which maps each block's stage to exactly its body. -/
theorem C2_split_blocks (bs : List Block) (hk : bs ≠ [])
    (hname : ∀ b ∈ bs, b.name ∈ stageKeywords)
    (hdist : bs.Pairwise (fun a b => stageOf a.name ≠ stageOf b.name))
    (hbody : ∀ b ∈ bs, b.body ≠ [] ∧ (∀ c ∈ b.body.head?, c ≠ '\r' ∧ c ≠ '\n') ∧
      ¬ typeToken <:+: b.body)
    (hlen : (concatBlocks bs).length < npos) :
    ∃ m, splitShaderSource (concatBlocks bs) = .ok m ∧ m.length = bs.length ∧
      ∀ b ∈ bs, m.get? (stageOf b.name) = some b.body := by
  have hb : ∀ b ∈ bs, b.name ∈ stageKeywords ∧ headNotIn lineEnds b.body = true ∧
      ¬ typeToken <:+: b.body := by
    intro b hbm
    obtain ⟨h1, h2, h3⟩ := hbody b hbm
    refine ⟨hname b hbm, ?_, h3⟩
    cases hbb : b.body with
    | nil => exact absurd hbb h1
    | cons c cs =>
      have := h2 c (by simp [hbb])
      simp [headNotIn, lineEnds_eq, this.1, this.2]
  have hstart : find (concatBlocks bs) typeToken 0 = 0 := by
    have hp : typeToken <+: concatBlocks bs :=
      (concatBlocks_starts bs).resolve_left (fun h => hk ((concatBlocks_eq_nil bs).1 h))
    have := searchFrom_append_hit (fun suf => typeToken.isPrefixOf suf) [] [] (concatBlocks bs)
      (by simp) (List.isPrefixOf_iff_prefix.2 hp)
      (fun h => hk ((concatBlocks_eq_nil bs).1 h))
    simpa [find] using this
  have hfuel : bs.length < (concatBlocks bs).length + 1 := by
    clear hstart hb hlen hbody hdist hname hk
    induction bs with
    | nil => simp
    | cons b bs ih =>
      simp only [concatBlocks, Block.text, List.length_append, List.length_cons, typeToken_eq]
      omega
  have hloop := splitLoop_blocks bs [] [] ((concatBlocks bs).length + 1) hb (by simpa using hlen)
    hfuel
  simp only [List.nil_append, if_neg hk, List.length_nil] at hloop
  obtain ⟨f1, f2, _⟩ := fold_set_spec bs [] hdist (by simp [ShaderMap.get?])
  refine ⟨_, ?_, ?_, f2⟩
  · rw [splitShaderSource, hstart]; exact hloop
  · simpa using f1

theorem C2_split_blocks_witness :
    ∃ m, splitShaderSource "#type vertex\nA\n#type fragment\nB\n".toList = .ok m ∧
      m.length = 2 ∧ m.get? GL_VERTEX_SHADER = some "A\n".toList ∧
      m.get? GL_FRAGMENT_SHADER = some "B\n".toList := by
  obtain ⟨m, h1, h2, h3⟩ := C2_split_blocks
    [⟨"vertex".toList, "A\n".toList⟩, ⟨"fragment".toList, "B\n".toList⟩]
    (by simp) (by decide) (by decide) (by decide) (by decide)
  exact ⟨m, h1, h2, h3 ⟨"vertex".toList, "A\n".toList⟩ (by simp),
    h3 ⟨"fragment".toList, "B\n".toList⟩ (by simp)⟩

/-- C3: a buffer that contains `#type`, one separator character and a stage name running up
to a line terminator (or to the end of the buffer) that is none of vertex, fragment, pixel,
geometry is rejected with a failed assertion, so no stage map is produced; `fragment` and
`pixel` denote the same stage. -/
theorem C3_unknown_stage_rejected (pre name rest : List Char) (c : Char)
    (hname : ∀ x ∈ name, x ≠ '\r' ∧ x ≠ '\n')
    (hrest : rest = [] ∨ ∃ t r, rest = t :: r ∧ (t = '\r' ∨ t = '\n'))
    (hbad : name ∉ stageKeywords)
    (hlen : (pre ++ (typeToken ++ c :: (name ++ rest))).length < npos) :
    (∃ msg, splitShaderSource (pre ++ (typeToken ++ c :: (name ++ rest)))
      = .error (.assertion msg)) ∧
    ShaderTypeFromString "fragment".toList = .ok GL_FRAGMENT_SHADER ∧
    ShaderTypeFromString "pixel".toList = .ok GL_FRAGMENT_SHADER := by
  refine ⟨?_, by decide, by decide⟩
  obtain ⟨msg, hbadd⟩ := bad_directive pre name rest c hname hrest hbad hlen
  have hocc : typeToken <+: (pre ++ (typeToken ++ c :: (name ++ rest))).drop pre.length := by
    rw [List.drop_left]; exact List.prefix_append _ _
  obtain ⟨_, h2, h3⟩ := find_zero_occ _ _ hlen hocc
  exact splitLoop_rejects _ _ msg hlen hocc hbadd _ _ [] h3 h2 (by omega)

theorem C3_unknown_stage_rejected_witness :
    (∃ msg, splitShaderSource "#type vertex\nA\n#type compute\nB\n".toList
      = .error (.assertion msg)) ∧
    ShaderTypeFromString "fragment".toList = .ok GL_FRAGMENT_SHADER ∧
    ShaderTypeFromString "pixel".toList = .ok GL_FRAGMENT_SHADER :=
  C3_unknown_stage_rejected "#type vertex\nA\n".toList "compute".toList "\nB\n".toList ' '
    (by decide) (by right; exact ⟨'\n', "B\n".toList, rfl, Or.inr rfl⟩) (by decide) (by decide)

/-- The extent of the source the loop body assigns at a directive, in terms of the buffer:
`e` is the first line terminator from `p` on, `n` the first character after it that is no
line terminator, `q` the next occurrence of the token from `n` on or the end of the buffer. -/
theorem directive_extent (s : List Char) (p g : Nat) (src : List Char) (p1 : Nat)
    (hlen : s.length < npos) (hocc : typeToken <+: s.drop p)
    (h : directive s p = .ok (g, src, p1)) :
    ∃ e n q,
      (p ≤ e ∧ isLineEndAt s e = true ∧ ∀ k, p ≤ k → k < e → isLineEndAt s k = false) ∧
      (e < n ∧ n < s.length ∧ isLineEndAt s n = false ∧
        ∀ k, e ≤ k → k < n → isLineEndAt s k = true) ∧
      (n ≤ q ∧ (q = s.length ∨ tokenAt s q = true) ∧
        ∀ k, n ≤ k → k < q → tokenAt s k = false) ∧
      src = (s.drop n).take (q - n) := by
  have hSZ := SZ_eq
  have hnp := npos_eq
  obtain ⟨eol, n, h1, h2, h3, h4, h5, h6, _, h8⟩ := directive_spec s p g src p1 hlen hocc h
  have he : (p ≤ eol ∧ isLineEndAt s eol = true ∧
      ∀ k, p ≤ k → k < eol → isLineEndAt s k = false) := by
    rcases searchFrom_spec (headIn lineEnds) s p with ⟨e1, _⟩ | ⟨e1, e2, e3, e4⟩
    · rw [← find_first_of, ← h1] at e1; omega
    · rw [← find_first_of, ← h1] at e1 e2 e3 e4
      refine ⟨e1, by rw [← headIn_eq_isLineEndAt]; exact e3, ?_⟩
      intro k hk1 hk2
      rw [← headIn_eq_isLineEndAt]; exact e4 k hk1 hk2
  have hn : (isLineEndAt s n = false ∧ ∀ k, eol ≤ k → k < n → isLineEndAt s k = true) := by
    rcases searchFrom_spec (headNotIn lineEnds) s eol with ⟨n1, _⟩ | ⟨n1, n2, n3, n4⟩
    · rw [← find_first_not_of, ← h2] at n1; omega
    · rw [← find_first_not_of, ← h2] at n1 n2 n3 n4
      rw [headNotIn_eq_isLineEndAt _ _ n2] at n3
      refine ⟨by simpa using n3, ?_⟩
      intro k hk1 hk2
      have := n4 k hk1 hk2
      rw [headNotIn_eq_isLineEndAt _ _ (by omega)] at this
      simpa using this
  rcases searchFrom_spec (fun suf => typeToken.isPrefixOf suf) s n with ⟨f1, f2⟩ | ⟨f1, f2, f3, f4⟩
  · rw [← find, ← h3] at f1
    refine ⟨eol, n, s.length, he, ⟨h5, h6, hn⟩, ⟨by omega, Or.inl rfl, ?_⟩, ?_⟩
    · intro k hk1 hk2
      exact f2 k hk1 hk2
    · rw [h8, f1, List.take_of_length_le, List.take_of_length_le]
      · simp
      · simp only [List.length_drop]; rw [SZ_eq, npos_eq]; omega
  · rw [← find, ← h3] at f1 f2 f3 f4
    refine ⟨eol, n, p1, he, ⟨h5, h6, hn⟩, ⟨f1, Or.inr f3, ?_⟩, ?_⟩
    · intro k hk1 hk2
      exact f4 k hk1 hk2
    · rw [h8]
      congr 1
      rw [SZ_eq]; omega

/-- C4 (amended): in an accepted buffer, for the directive at any occurrence `p` of `#type`,
the source stored for its stage runs from the first character after the directive line that
is not a line terminator (blank lines after the directive line are skipped) up to the next
occurrence of `#type`, or to the end of the buffer, copied verbatim; it is the stored entry
unless a later directive names the same stage. -/
theorem C4_source_extent (s : List Char) (m : ShaderMap) (hlen : s.length < npos)
    (hok : splitShaderSource s = .ok m) (p : Nat) (hp : tokenAt s p = true) :
    ∃ g e n q, stageAt s p = some g ∧
      (p ≤ e ∧ isLineEndAt s e = true ∧ ∀ k, p ≤ k → k < e → isLineEndAt s k = false) ∧
      (e < n ∧ n < s.length ∧ isLineEndAt s n = false ∧
        ∀ k, e ≤ k → k < n → isLineEndAt s k = true) ∧
      (n ≤ q ∧ (q = s.length ∨ tokenAt s q = true) ∧
        ∀ k, n ≤ k → k < q → tokenAt s k = false) ∧
      ((∀ p2, p < p2 → tokenAt s p2 = true → stageAt s p2 ≠ some g) →
        m.get? g = some ((s.drop n).take (q - n))) := by
  rw [tokenAt_iff] at hp
  obtain ⟨_, h2, h3⟩ := find_zero_occ s p hlen hp
  obtain ⟨g, src, p1, hd, hget⟩ := splitLoop_get s p hlen hp _ _ [] m hok h3 h2
  obtain ⟨e, n, q, he, hn, hq, hsrc⟩ := directive_extent s p g src p1 hlen hp hd
  refine ⟨g, e, n, q, stageAt_of_ok s p g src p1 hd, he, hn, hq, fun hno => ?_⟩
  rw [← hsrc]
  exact hget (fun p2 hp2 ho => hno p2 hp2 ((tokenAt_iff s p2).2 ho))

theorem C4_source_extent_witness :
    ∃ g e n q, stageAt "#type vertex\n\nA\n#type pixel\nB".toList 0 = some g ∧
      (0 ≤ e ∧ isLineEndAt "#type vertex\n\nA\n#type pixel\nB".toList e = true ∧
        ∀ k, 0 ≤ k → k < e → isLineEndAt "#type vertex\n\nA\n#type pixel\nB".toList k = false) ∧
      (e < n ∧ n < "#type vertex\n\nA\n#type pixel\nB".toList.length ∧
        isLineEndAt "#type vertex\n\nA\n#type pixel\nB".toList n = false ∧
        ∀ k, e ≤ k → k < n → isLineEndAt "#type vertex\n\nA\n#type pixel\nB".toList k = true) ∧
      (n ≤ q ∧ (q = "#type vertex\n\nA\n#type pixel\nB".toList.length ∨
          tokenAt "#type vertex\n\nA\n#type pixel\nB".toList q = true) ∧
        ∀ k, n ≤ k → k < q → tokenAt "#type vertex\n\nA\n#type pixel\nB".toList k = false) ∧
      ((∀ p2, 0 < p2 → tokenAt "#type vertex\n\nA\n#type pixel\nB".toList p2 = true →
          stageAt "#type vertex\n\nA\n#type pixel\nB".toList p2 ≠ some g) →
        ShaderMap.get? [(GL_VERTEX_SHADER, "A\n".toList), (GL_FRAGMENT_SHADER, "B".toList)] g
          = some (("#type vertex\n\nA\n#type pixel\nB".toList.drop n).take (q - n))) :=
  C4_source_extent "#type vertex\n\nA\n#type pixel\nB".toList
    [(GL_VERTEX_SHADER, "A\n".toList), (GL_FRAGMENT_SHADER, "B".toList)] (by decide) (by decide)
    0 (by decide)

/-- C4, as stated, fails: in the accepted buffer `#type vertex\n\nA` the character just after
the directive line's terminator is the `\n` at index 13, but the stored vertex source is `A`,
not `\nA`. -/
theorem C4_blank_line_counterexample :
    splitShaderSource "#type vertex\n\nA".toList = .ok [(GL_VERTEX_SHADER, "A".toList)] ∧
    isLineEndAt "#type vertex\n\nA".toList 12 = true ∧
    "#type vertex\n\nA".toList.drop 13 = "\nA".toList ∧
    ShaderMap.get? [(GL_VERTEX_SHADER, "A".toList)] GL_VERTEX_SHADER ≠ some "\nA".toList := by
  decide

theorem boundariesFrom_occ (s : List Char) (hlen : s.length < npos) :
    ∀ (fuel pos : Nat), (pos = npos ∨ typeToken <+: s.drop pos) →
      ∀ p ∈ boundariesFrom s fuel pos, typeToken <+: s.drop p := by
  intro fuel
  induction fuel with
  | zero => intro pos _ p hp; simp [boundariesFrom] at hp
  | succ f ih =>
    intro pos hpos p hp
    rw [boundariesFrom] at hp
    by_cases hn : pos = npos
    · rw [if_pos hn] at hp; simp at hp
    · rw [if_neg hn] at hp
      have hocc := hpos.resolve_left hn
      rcases List.mem_cons.1 hp with h | h
      · rw [h]; exact hocc
      · cases hd : directive s pos with
        | error e => rw [hd] at h; simp at h
        | ok r =>
          obtain ⟨g1, src1, pos1⟩ := r
          rw [hd] at h
          exact ih pos1 ((directive_progress s pos g1 src1 pos1 hlen hocc hd).imp id
            (fun x => x.2)) p h

theorem boundariesFrom_all (s : List Char) (p : Nat) (hlen : s.length < npos)
    (hp : typeToken <+: s.drop p) :
    ∀ (fuel pos : Nat) (m0 m : ShaderMap), splitLoop s fuel pos m0 = .ok m →
      typeToken <+: s.drop pos → pos ≤ p → p ∈ boundariesFrom s fuel pos := by
  have hnp := npos_eq
  intro fuel
  induction fuel with
  | zero => intro pos m0 m h; simp [splitLoop] at h
  | succ f ih =>
    intro pos m0 m h hocc hle
    have hpl := occ_length s pos hocc
    rw [splitLoop, if_neg (by omega)] at h
    rw [boundariesFrom, if_neg (by omega)]
    rcases Nat.eq_or_lt_of_le hle with heq | hlt
    · rw [heq]; exact List.mem_cons_self _ _
    · cases hd : directive s pos with
      | error e => rw [hd] at h; simp at h
      | ok r =>
        obtain ⟨g1, src1, pos1⟩ := r
        rw [hd] at h
        obtain ⟨_, h2, _, h4⟩ := directive_next s pos g1 src1 pos1 p hlen hocc hd hp hlt
        exact List.mem_cons_of_mem _ (ih pos1 _ m h h4 h2)

/-- The shape of a directive line the loop body accepts, when the token is not directly
followed by a line terminator: one character, a keyword, a line terminator. -/
theorem directive_shape (s : List Char) (p g : Nat) (src : List Char) (p1 : Nat)
    (hlen : s.length < npos) (hocc : typeToken <+: s.drop p)
    (h : directive s p = .ok (g, src, p1)) (hsep : isLineEndAt s (p + 5) = false) :
    ∃ kw ∈ stageKeywords, ∃ c t rest, (t = '\r' ∨ t = '\n') ∧
      s.drop p = typeToken ++ c :: kw ++ t :: rest := by
  have hSZ := SZ_eq
  have hnp := npos_eq
  obtain ⟨e, n, q, ⟨he1, he2, he3⟩, _, _, _⟩ := directive_extent s p g src p1 hlen hocc h
  obtain ⟨eol, n1, h1, _, _, h4, h5, h6, h7, _⟩ := directive_spec s p g src p1 hlen hocc h
  have heol : isLineEndAt s eol = true := by
    rcases searchFrom_spec (headIn lineEnds) s p with ⟨e1, _⟩ | ⟨_, _, e3, _⟩
    · rw [← find_first_of, ← h1] at e1; omega
    · rw [← find_first_of, ← h1] at e3
      rw [← headIn_eq_isLineEndAt]; exact e3
  have h6' : p + 6 ≤ eol := by
    rcases Nat.eq_or_lt_of_le h4 with heq | hlt
    · rw [← heq, hsep] at heol; simp at heol
    · omega
  have hcnt : (eol + SZ - (p + 6)) % SZ = eol - (p + 6) := by rw [SZ_eq]; omega
  rw [hcnt] at h7
  have hkw := ShaderTypeFromString_ok _ _ h7
  have hel : eol < s.length := by omega
  have hch : s[eol] = '\r' ∨ s[eol] = '\n' := by
    simp only [isLineEndAt, List.getElem?_eq_getElem hel, Bool.or_eq_true, beq_iff_eq] at heol
    exact heol
  refine ⟨_, hkw, s[p + 5], s[eol], s.drop (eol + 1), hch, ?_⟩
  obtain ⟨t0, ht0⟩ := hocc
  have hA : s.drop p = (s.drop p).take 5 ++ s.drop (p + 5) := by
    have := List.take_append_drop 5 (s.drop p)
    rw [List.drop_drop] at this
    exact this.symm
  have hB : (s.drop p).take 5 = typeToken := by
    rw [← ht0, typeToken_eq]; rfl
  have hC : s.drop (p + 5) = s[p + 5] :: s.drop (p + 6) :=
    List.drop_eq_getElem_cons (by omega)
  have hD : s.drop (p + 6) = (s.drop (p + 6)).take (eol - (p + 6)) ++ s.drop eol := by
    have := List.take_append_drop (eol - (p + 6)) (s.drop (p + 6))
    rw [List.drop_drop, show p + 6 + (eol - (p + 6)) = eol by omega] at this
    exact this.symm
  have hE : s.drop eol = s[eol] :: s.drop (eol + 1) := List.drop_eq_getElem_cons hel
  have key : s.drop p = typeToken ++ (s[p + 5] :: ((s.drop (p + 6)).take (eol - (p + 6)) ++
      (s[eol] :: s.drop (eol + 1)))) := by
    rw [← hE, ← hD, ← hC, ← hB]
    exact hA
  rw [key]
  simp

/-- C5 (amended): every position the loop treats as a stage boundary is an occurrence of
`#type`; in an accepted buffer every occurrence of `#type` is a boundary, whether or not it
begins a line, and at each of them `#type` is followed by exactly one character (of any
kind), one of the keywords vertex, fragment, pixel, geometry and a line terminator (the
case of a line terminator directly after `#type` is left aside). -/
theorem C5_boundaries (s : List Char) (hlen : s.length < npos) :
    (∀ p ∈ boundaries s, tokenAt s p = true) ∧
    (∀ m, splitShaderSource s = .ok m →
      (∀ p, tokenAt s p = true → p ∈ boundaries s) ∧
      (∀ p, tokenAt s p = true → isLineEndAt s (p + 5) = false →
        ∃ kw ∈ stageKeywords, ∃ c t rest, (t = '\r' ∨ t = '\n') ∧
          s.drop p = typeToken ++ c :: kw ++ t :: rest)) := by
  refine ⟨?_, ?_⟩
  · intro p hp
    rw [tokenAt_iff]
    refine boundariesFrom_occ s hlen _ _ ?_ p hp
    exact (find_occ_or_npos s 0).imp id (fun x => x.2)
  · intro m hok
    refine ⟨?_, ?_⟩
    · intro p hp
      rw [tokenAt_iff] at hp
      obtain ⟨_, h2, h3⟩ := find_zero_occ s p hlen hp
      exact boundariesFrom_all s p hlen hp _ _ [] m hok h3 h2
    · intro p hp hsep
      rw [tokenAt_iff] at hp
      obtain ⟨_, h2, h3⟩ := find_zero_occ s p hlen hp
      obtain ⟨g, src, p1, hd, _⟩ := splitLoop_get s p hlen hp _ _ [] m hok h3 h2
      exact directive_shape s p g src p1 hlen hp hd hsep

theorem C5_boundaries_witness :
    (∀ p ∈ boundaries "x #type\tpixel\nA".toList, tokenAt "x #type\tpixel\nA".toList p = true) ∧
    (∀ m, splitShaderSource "x #type\tpixel\nA".toList = .ok m →
      (∀ p, tokenAt "x #type\tpixel\nA".toList p = true →
        p ∈ boundaries "x #type\tpixel\nA".toList) ∧
      (∀ p, tokenAt "x #type\tpixel\nA".toList p = true →
        isLineEndAt "x #type\tpixel\nA".toList (p + 5) = false →
        ∃ kw ∈ stageKeywords, ∃ c t rest, (t = '\r' ∨ t = '\n') ∧
          "x #type\tpixel\nA".toList.drop p = typeToken ++ c :: kw ++ t :: rest)) :=
  C5_boundaries "x #type\tpixel\nA".toList (by decide)

/-- C5, as stated, fails both ways: in `x#type vertex\nA` the `#type` at index 1 does not
begin a line and is a boundary of an accepted buffer; and `#type  vertex\nA`, with two
spaces before the keyword, is rejected. -/
theorem C5_boundary_counterexample :
    boundaries "x#type vertex\nA".toList = [1] ∧
    splitShaderSource "x#type vertex\nA".toList = .ok [(GL_VERTEX_SHADER, "A".toList)] ∧
    splitShaderSource "#type  vertex\nA".toList
      = .error (.assertion "Unknown shader type") := by
  decide

/-! ## Claims about the display name -/

theorem lastIdx_none (p : Char → Bool) (l : List Char) (h : ∀ x ∈ l, p x = false) :
    lastIdx p l = none := by
  induction l with
  | nil => rfl
  | cons c cs ih =>
    have h1 := ih (fun x hx => h x (List.mem_cons_of_mem _ hx))
    have h2 := h c (List.mem_cons_self _ _)
    simp [lastIdx, h1, h2]

theorem lastIdx_append_none (p : Char → Bool) (a b : List Char) (hb : ∀ x ∈ b, p x = false) :
    lastIdx p (a ++ b) = lastIdx p a := by
  induction a with
  | nil => simpa [lastIdx] using lastIdx_none p b hb
  | cons c cs ih => simp [lastIdx, ih]

theorem lastIdx_append_hit (p : Char → Bool) (a b : List Char) (c : Char) (hc : p c = true)
    (hb : ∀ x ∈ b, p x = false) : lastIdx p (a ++ c :: b) = some a.length := by
  induction a with
  | nil => simp [lastIdx, lastIdx_none p b hb, hc]
  | cons d ds ih => simp [lastIdx, ih]

theorem lastIdx_lt (p : Char → Bool) (l : List Char) (j : Nat) (h : lastIdx p l = some j) :
    j < l.length := by
  induction l generalizing j with
  | nil => simp [lastIdx] at h
  | cons c cs ih =>
    rw [lastIdx] at h
    cases hl : lastIdx p cs with
    | none =>
      rw [hl] at h
      by_cases hc : p c = true
      · simp [hc] at h; simp [← h]
      · simp [hc] at h
    | some i =>
      rw [hl] at h
      simp only [Option.some.injEq] at h
      have := ih i hl
      simp only [List.length_cons]
      omega

/-- Every path is a directory part, empty or ending with a separator, followed by a file
name without separators. -/
theorem path_split (path : List Char) :
    ∃ dir base, path = dir ++ base ∧
      (dir = [] ∨ ∃ d sep, dir = d ++ [sep] ∧ (sep = '/' ∨ sep = '\\')) ∧
      ∀ x ∈ base, x ≠ '/' ∧ x ≠ '\\' := by
  induction path with
  | nil => exact ⟨[], [], rfl, Or.inl rfl, by simp⟩
  | cons c cs ih =>
    obtain ⟨dir, base, h1, h2, h3⟩ := ih
    rcases h2 with h2 | ⟨d, sep, h2, h4⟩
    · subst h2
      by_cases hc : c = '/' ∨ c = '\\'
      · exact ⟨[c], base, by simp [h1], Or.inr ⟨[], c, rfl, hc⟩, h3⟩
      · refine ⟨[], c :: base, by simp [h1], Or.inl rfl, ?_⟩
        intro x hx
        rcases List.mem_cons.1 hx with h | h
        · subst h; exact ⟨fun h => hc (Or.inl h), fun h => hc (Or.inr h)⟩
        · exact h3 x h
    · exact ⟨c :: dir, base, by simp [h1], Or.inr ⟨c :: d, sep, by simp [h2], h4⟩, h3⟩

/-- C6: the display name derived from a path `dir ++ base`, where `dir` is empty or ends
with the last `/` or `\` of the path, is `base` cut just before its last `.`, and the whole
of `base` when `base` has no `.` (also when `dir` has one). -/
theorem C6_display_name (dir base : List Char)
    (hdir : dir = [] ∨ ∃ d sep, dir = d ++ [sep] ∧ (sep = '/' ∨ sep = '\\'))
    (hbase : ∀ x ∈ base, x ≠ '/' ∧ x ≠ '\\') (hlen : (dir ++ base).length < npos) :
    (∀ stem ext, base = stem ++ '.' :: ext → '.' ∉ ext →
      deriveName (dir ++ base) = .ok stem) ∧
    ('.' ∉ base → deriveName (dir ++ base) = .ok base) := by
  have hSZ := SZ_eq
  have hnp := npos_eq
  have hsepb : ∀ x ∈ base, (fun c => "/\\".toList.contains c) x = false := by
    intro x hx
    have := hbase x hx
    have e : "/\\".toList = ['/', '\\'] := by decide
    simp [e, this.1, this.2]
  -- the start of the name
  have hslash : (if find_last_of (dir ++ base) "/\\".toList = npos then 0
      else (find_last_of (dir ++ base) "/\\".toList + 1) % SZ) = dir.length := by
    rcases hdir with hd | ⟨d, sep, hd, hsep⟩
    · subst hd
      rw [find_last_of, List.nil_append, lastIdx_none _ base hsepb]
      simp
    · have hs : dir ++ base = d ++ sep :: base := by simp [hd]
      have hp : (fun c => "/\\".toList.contains c) sep = true := by
        have e : "/\\".toList = ['/', '\\'] := by decide
        rcases hsep with h | h <;> subst h <;> simp [e]
      have hl : dir.length = d.length + 1 := by simp [hd]
      have hl2 : (dir ++ base).length = dir.length + base.length := by simp
      rw [find_last_of, hs, lastIdx_append_hit _ d base sep hp hsepb]
      simp only
      rw [if_neg (by omega), hl, SZ_eq]
      omega
  have hl2 : (dir ++ base).length = dir.length + base.length := by simp
  refine ⟨?_, ?_⟩
  · intro stem ext hb hext
    have hs : dir ++ base = (dir ++ stem) ++ '.' :: ext := by simp [hb]
    have hdot : rfind (dir ++ base) '.' = dir.length + stem.length := by
      rw [rfind, hs, lastIdx_append_hit _ (dir ++ stem) ext '.' (by simp)
        (fun x hx => by
          have : x ≠ '.' := fun h => hext (h ▸ hx)
          simpa using this)]
      simp
    have hbl : base.length = stem.length + 1 + ext.length := by simp [hb]; omega
    simp only [deriveName, hslash, hdot, substr]
    rw [if_neg (by omega), if_neg (by omega), List.drop_left,
      show (dir.length + stem.length + SZ - dir.length) % SZ = stem.length by
        rw [SZ_eq]; omega, hb, List.take_left]
  · intro hno
    have hdotb : ∀ x ∈ base, (fun c => c == '.') x = false := by
      intro x hx
      have : x ≠ '.' := fun h => hno (h ▸ hx)
      simpa using this
    simp only [deriveName, hslash, substr]
    rw [if_neg (by omega), List.drop_left]
    congr 1
    apply List.take_of_length_le
    rw [rfind, lastIdx_append_none _ dir base hdotb]
    cases hl : lastIdx (fun c => c == '.') dir with
    | none =>
      simp only [if_true]
      rw [SZ_eq]; omega
    | some j =>
      have := lastIdx_lt _ _ _ hl
      simp only
      rw [if_neg (by omega), SZ_eq]
      omega

theorem C6_display_name_witness :
    deriveName "assets/shaders/Texture.glsl".toList = .ok "Texture".toList ∧
    deriveName "assets.v2/shader".toList = .ok "shader".toList :=
  ⟨(C6_display_name "assets/shaders/".toList "Texture.glsl".toList
      (Or.inr ⟨"assets/shaders".toList, '/', rfl, Or.inl rfl⟩) (by decide) (by decide)).1
      "Texture".toList "glsl".toList rfl (by decide),
    (C6_display_name "assets.v2/".toList "shader".toList
      (Or.inr ⟨"assets.v2".toList, '/', rfl, Or.inl rfl⟩) (by decide) (by decide)).2 (by decide)⟩

/-! ## Claims about the renderer -/

theorem run_ok (calls : List SceneCall) : ∀ st : RendererState,
    ∃ st1, Renderer.run st calls = .ok st1 := by
  induction calls with
  | nil => intro st; exact ⟨st, rfl⟩
  | cons c cs ih =>
    intro st
    cases c with
    | BeginScene camera => exact ih _
    | Submit va sh t => exact ih _
    | EndScene => exact ih _

/-- C7 (amended): the renderer keeps no Idle/SceneActive state; every sequence of
`BeginScene`, `Submit` and `EndScene` calls runs without error from every state, so in
particular every sequence that follows the protocol does, and after `BeginScene` then
`EndScene` a new `BeginScene` succeeds. -/
theorem C7_scene_calls_never_fail (st : RendererState) (calls : List SceneCall) :
    (∃ st1, Renderer.run st calls = .ok st1) ∧
    (∀ c1 c2, ∃ st1, Renderer.run st [.BeginScene c1, .EndScene, .BeginScene c2] = .ok st1) :=
  ⟨run_ok calls st, fun _ _ => run_ok _ st⟩

/-- C7, as stated, fails: `Submit` before any `BeginScene`, and `BeginScene` twice in a row,
both break the protocol and both run without error. -/
theorem C7_protocol_counterexample :
    protocolValid .Idle [.Submit 1 2 ⟨[]⟩] = false ∧
    (Renderer.run ⟨⟨⟨[]⟩⟩, (0, 0, 0, 0), []⟩ [.Submit 1 2 ⟨[]⟩]).isOk = true ∧
    protocolValid .Idle [.BeginScene ⟨⟨[]⟩⟩, .BeginScene ⟨⟨[]⟩⟩] = false ∧
    (Renderer.run ⟨⟨⟨[]⟩⟩, (0, 0, 0, 0), []⟩ [.BeginScene ⟨⟨[]⟩⟩, .BeginScene ⟨⟨[]⟩⟩]).isOk
      = true := by
  decide

theorem run_no_begin (calls : List SceneCall) : ∀ (st st1 : RendererState),
    (∀ c ∈ calls, c.isBeginScene = false) → Renderer.run st calls = .ok st1 →
    st1.m_SceneData = st.m_SceneData := by
  induction calls with
  | nil =>
    intro st st1 _ h
    simp only [Renderer.run, Except.ok.injEq] at h
    rw [h]
  | cons c cs ih =>
    intro st st1 hno h
    have hc := hno c (List.mem_cons_self _ _)
    have hcs : ∀ c ∈ cs, c.isBeginScene = false := fun x hx => hno x (List.mem_cons_of_mem _ hx)
    cases c with
    | BeginScene camera => simp [SceneCall.isBeginScene] at hc
    | Submit va sh t =>
      have := ih _ st1 hcs h
      rw [this]; rfl
    | EndScene =>
      have := ih _ st1 hcs h
      rw [this]; rfl

/-- C8: after `BeginScene(camera)` and any further calls that are not a `BeginScene`,
`Submit(vertexArray, shader, transform)` issues exactly five calls, in this order: activate
the shader, upload `transform` to `modelMat`, upload the camera's view-projection matrix to
`viewProjMat`, bind the vertex array, one indexed draw of it; `EndScene` issues nothing. -/
theorem C8_submit_commands (st st1 : RendererState) (camera : OrthographicCamera)
    (mid : List SceneCall) (vertexArray shader : Nat) (transform : Mat4)
    (hmid : ∀ c ∈ mid, c.isBeginScene = false)
    (hrun : Renderer.run (Renderer.BeginScene st camera) mid = .ok st1) :
    (Renderer.Submit st1 vertexArray shader transform).issued = st1.issued ++
      [RenderCall.use shader,
       RenderCall.setMat4fv shader "modelMat" transform,
       RenderCall.setMat4fv shader "viewProjMat" camera.GetViewProjectionMatrix,
       RenderCall.Bind vertexArray,
       RenderCall.DrawIndexed vertexArray] ∧
    (Renderer.EndScene st1).issued = st1.issued ∧
    (Renderer.BeginScene st camera).issued = st.issued := by
  have h := run_no_begin mid _ st1 hmid hrun
  refine ⟨?_, rfl, rfl⟩
  simp only [Renderer.Submit, h, Renderer.BeginScene]

theorem C8_submit_commands_witness :
    (Renderer.Submit (Renderer.Submit (Renderer.BeginScene ⟨⟨⟨[]⟩⟩, (0, 0, 0, 0), []⟩ ⟨⟨[7]⟩⟩)
        1 2 ⟨[3]⟩) 4 5 ⟨[6]⟩).issued =
      (Renderer.Submit (Renderer.BeginScene ⟨⟨⟨[]⟩⟩, (0, 0, 0, 0), []⟩ ⟨⟨[7]⟩⟩)
        1 2 ⟨[3]⟩).issued ++
      [RenderCall.use 5,
       RenderCall.setMat4fv 5 "modelMat" ⟨[6]⟩,
       RenderCall.setMat4fv 5 "viewProjMat" ⟨[7]⟩,
       RenderCall.Bind 4,
       RenderCall.DrawIndexed 4] :=
  (C8_submit_commands ⟨⟨⟨[]⟩⟩, (0, 0, 0, 0), []⟩ _ ⟨⟨[7]⟩⟩ [.Submit 1 2 ⟨[3]⟩] 4 5 ⟨[6]⟩
    (by decide) rfl).1

/-! ## Claims about the resize handler -/

/-- C9: a resize event (0,0) sets `m_minimized`, leaves the viewport (and the rest of the
renderer) and `m_running` as they were and is not consumed; a resize event with both sizes
non-zero clears `m_minimized`, sets the viewport to (0,0,w,h), leaves `m_running` as it was
and is not consumed. -/
theorem C9_resize (app : Application) (w h : Nat) (hw : w ≠ 0) (hh : h ≠ 0) :
    app.OnWindowResize ⟨0, 0⟩ = ({ app with m_minimized := true }, false) ∧
    ((app.OnWindowResize ⟨w, h⟩).1.m_minimized = false ∧
     (app.OnWindowResize ⟨w, h⟩).1.renderer.viewport = (0, 0, w, h) ∧
     (app.OnWindowResize ⟨w, h⟩).1.m_running = app.m_running ∧
     (app.OnWindowResize ⟨w, h⟩).2 = false) := by
  refine ⟨by simp [Application.OnWindowResize, WindowResizeEvent.GetWidth,
    WindowResizeEvent.GetHeight], ?_⟩
  simp [Application.OnWindowResize, WindowResizeEvent.GetWidth, WindowResizeEvent.GetHeight,
    hw, hh, Renderer.OnWindowResize, RenderCommand.SetViewport]

theorem C9_resize_witness :
    Application.OnWindowResize ⟨true, true, ⟨⟨⟨[]⟩⟩, (0, 0, 1280, 720), []⟩⟩ ⟨0, 0⟩
      = (⟨true, true, ⟨⟨⟨[]⟩⟩, (0, 0, 1280, 720), []⟩⟩, false) ∧
    ((Application.OnWindowResize ⟨true, true, ⟨⟨⟨[]⟩⟩, (0, 0, 1280, 720), []⟩⟩
        ⟨800, 600⟩).1.m_minimized = false ∧
     (Application.OnWindowResize ⟨true, true, ⟨⟨⟨[]⟩⟩, (0, 0, 1280, 720), []⟩⟩
        ⟨800, 600⟩).1.renderer.viewport = (0, 0, 800, 600) ∧
     (Application.OnWindowResize ⟨true, true, ⟨⟨⟨[]⟩⟩, (0, 0, 1280, 720), []⟩⟩
        ⟨800, 600⟩).1.m_running = true ∧
     (Application.OnWindowResize ⟨true, true, ⟨⟨⟨[]⟩⟩, (0, 0, 1280, 720), []⟩⟩
        ⟨800, 600⟩).2 = false) :=
  C9_resize ⟨true, true, ⟨⟨⟨[]⟩⟩, (0, 0, 1280, 720), []⟩⟩ 800 600 (by decide) (by decide)

/-- C10 (amended): a resize event with width = 0 and height = 0 marks the application
minimized and leaves the renderer untouched; every other resize event, also one with only
one size zero, clears `m_minimized` and applies the viewport (0,0,w,h). -/
theorem C10_zero_area (app : Application) (w h : Nat) :
    (w = 0 ∧ h = 0 →
      (app.OnWindowResize ⟨w, h⟩).1.m_minimized = true ∧
      (app.OnWindowResize ⟨w, h⟩).1.renderer = app.renderer) ∧
    (¬ (w = 0 ∧ h = 0) →
      (app.OnWindowResize ⟨w, h⟩).1.m_minimized = false ∧
      (app.OnWindowResize ⟨w, h⟩).1.renderer.viewport = (0, 0, w, h)) := by
  refine ⟨?_, ?_⟩
  · rintro ⟨rfl, rfl⟩
    simp [Application.OnWindowResize, WindowResizeEvent.GetWidth, WindowResizeEvent.GetHeight]
  · intro hne
    simp [Application.OnWindowResize, WindowResizeEvent.GetWidth, WindowResizeEvent.GetHeight,
      hne, Renderer.OnWindowResize, RenderCommand.SetViewport]

theorem C10_zero_area_witness :
    ((0 = 0 ∧ 0 = 0 →
      (Application.OnWindowResize ⟨true, false, ⟨⟨⟨[]⟩⟩, (0, 0, 1280, 720), []⟩⟩
        ⟨0, 0⟩).1.m_minimized = true ∧
      (Application.OnWindowResize ⟨true, false, ⟨⟨⟨[]⟩⟩, (0, 0, 1280, 720), []⟩⟩
        ⟨0, 0⟩).1.renderer = ⟨⟨⟨[]⟩⟩, (0, 0, 1280, 720), []⟩) ∧
    (¬ (0 = 0 ∧ 0 = 0) →
      (Application.OnWindowResize ⟨true, false, ⟨⟨⟨[]⟩⟩, (0, 0, 1280, 720), []⟩⟩
        ⟨0, 0⟩).1.m_minimized = false ∧
      (Application.OnWindowResize ⟨true, false, ⟨⟨⟨[]⟩⟩, (0, 0, 1280, 720), []⟩⟩
        ⟨0, 0⟩).1.renderer.viewport = (0, 0, 0, 0))) ∧
    (Application.OnWindowResize ⟨true, false, ⟨⟨⟨[]⟩⟩, (0, 0, 1280, 720), []⟩⟩
      ⟨0, 0⟩).1.m_minimized = true :=
  ⟨C10_zero_area ⟨true, false, ⟨⟨⟨[]⟩⟩, (0, 0, 1280, 720), []⟩⟩ 0 0,
    ((C10_zero_area ⟨true, false, ⟨⟨⟨[]⟩⟩, (0, 0, 1280, 720), []⟩⟩ 0 0).1 ⟨rfl, rfl⟩).1⟩

/-- C10, as stated, fails: the resize event (0,600) has zero area, yet the application is
not marked minimized and the viewport (0,0,0,600) is applied. -/
theorem C10_zero_width_counterexample :
    (Application.OnWindowResize ⟨true, true, ⟨⟨⟨[]⟩⟩, (0, 0, 1280, 720), []⟩⟩
      ⟨0, 600⟩).1.m_minimized = false ∧
    (Application.OnWindowResize ⟨true, true, ⟨⟨⟨[]⟩⟩, (0, 0, 1280, 720), []⟩⟩
      ⟨0, 600⟩).1.renderer.viewport = (0, 0, 0, 600) := by
  decide

/-! ## Claims about event dispatch and the frame loop -/

theorem builtin_fields (app : ApplicationState) (evnt : Event) :
    (app.builtin evnt).1.m_layerStack = app.m_layerStack ∧
    (app.builtin evnt).1.calls = app.calls ∧
    (app.builtin evnt).1.m_lastFrameTime = app.m_lastFrameTime ∧
    (app.builtin evnt).1.m_running
      = (if evnt.kind = EventType.WindowClose then false else app.m_running) := by
  obtain ⟨kind, handled⟩ := evnt
  cases kind with
  | WindowClose =>
    simp [ApplicationState.builtin, ApplicationState.dispatchWindowClose,
      ApplicationState.dispatchWindowResize, Application.OnWindowClose]
  | WindowResize w h =>
    simp only [ApplicationState.builtin, ApplicationState.dispatchWindowClose,
      ApplicationState.dispatchWindowResize, Application.OnWindowResize]
    split <;> simp
  | Other tag =>
    simp [ApplicationState.builtin, ApplicationState.dispatchWindowClose,
      ApplicationState.dispatchWindowResize]

theorem builtin_close (app : ApplicationState) (handled : Bool) :
    (app.builtin ⟨EventType.WindowClose, handled⟩).1.m_running = false ∧
    (app.builtin ⟨EventType.WindowClose, handled⟩).2.m_Handled = true ∧
    (app.builtin ⟨EventType.WindowClose, handled⟩).1.m_minimized = app.m_minimized := by
  simp [ApplicationState.builtin, ApplicationState.dispatchWindowClose,
    ApplicationState.dispatchWindowResize, Application.OnWindowClose]

theorem OnEvent_fields (app : ApplicationState) (evnt : Event) :
    (app.OnEvent evnt).1.m_layerStack = app.m_layerStack ∧
    (app.OnEvent evnt).1.m_running
      = (if evnt.kind = EventType.WindowClose then false else app.m_running) ∧
    (app.OnEvent evnt).1.calls
      = app.calls ++ (layerEventLoop app.m_layerStack.layers.reverse (app.builtin evnt).2).1 := by
  obtain ⟨h1, h2, _, h4⟩ := builtin_fields app evnt
  simp only [ApplicationState.OnEvent, h1, h2, h4, and_self]

theorem layerEventLoop_isOnEvent (ls : List Layer) : ∀ (evnt : Event),
    ∀ c ∈ (layerEventLoop ls evnt).1, c.isOnEvent = true := by
  induction ls with
  | nil => intro evnt c hc; simp [layerEventLoop] at hc
  | cons l rest ih =>
    intro evnt c hc
    simp only [layerEventLoop] at hc
    split at hc
    · simp only [List.mem_singleton] at hc
      rw [hc]; rfl
    · rcases List.mem_cons.1 hc with h | h
      · rw [h]; rfl
      · exact ih _ c h

theorem layerEventLoop_cons_false (l : Layer) (rest : List Layer) (evnt : Event)
    (h : evnt.m_Handled = false) (hl : l.OnEvent evnt = false) :
    layerEventLoop (l :: rest) evnt
      = (AppCall.OnEvent l.name evnt :: (layerEventLoop rest evnt).1,
         (layerEventLoop rest evnt).2) := by
  obtain ⟨kind, handled⟩ := evnt
  simp only at h
  subst h
  simp only [layerEventLoop, hl, Bool.false_eq_true, if_false]

theorem layerEventLoop_cons_true (l : Layer) (rest : List Layer) (evnt : Event)
    (hl : l.OnEvent evnt = true) :
    (layerEventLoop (l :: rest) evnt).1 = [AppCall.OnEvent l.name evnt] := by
  simp only [layerEventLoop, hl, if_true]

/-- When the event enters the loop not handled, the layers visited all receive the same
event, and they are an initial part of the layers in visiting order. -/
theorem layerEventLoop_shape (ls : List Layer) (evnt : Event) (h : evnt.m_Handled = false) :
    ∃ k, (layerEventLoop ls evnt).1
      = (ls.take k).map (fun layer => AppCall.OnEvent layer.name evnt) := by
  induction ls with
  | nil => exact ⟨0, rfl⟩
  | cons l rest ih =>
    by_cases hl : l.OnEvent evnt = true
    · exact ⟨1, by rw [layerEventLoop_cons_true l rest evnt hl]; rfl⟩
    · obtain ⟨k, hk⟩ := ih
      refine ⟨k + 1, ?_⟩
      rw [layerEventLoop_cons_false l rest evnt h (by simpa using hl), hk]
      rfl

theorem layerEventLoop_none (ls : List Layer) (evnt : Event) (h : evnt.m_Handled = false)
    (hno : ∀ x ∈ ls, x.OnEvent evnt = false) :
    layerEventLoop ls evnt = (ls.map (fun layer => AppCall.OnEvent layer.name evnt), evnt) := by
  induction ls with
  | nil => rfl
  | cons l rest ih =>
    rw [layerEventLoop_cons_false l rest evnt h (hno l (List.mem_cons_self _ _)),
      ih (fun x hx => hno x (List.mem_cons_of_mem _ hx))]
    rfl

theorem layerEventLoop_stop (above rest : List Layer) (l : Layer) (evnt : Event)
    (h : evnt.m_Handled = false) (hno : ∀ x ∈ above, x.OnEvent evnt = false)
    (hl : l.OnEvent evnt = true) :
    (layerEventLoop (above ++ l :: rest) evnt).1
      = above.map (fun layer => AppCall.OnEvent layer.name evnt)
        ++ [AppCall.OnEvent l.name evnt] := by
  induction above with
  | nil => exact layerEventLoop_cons_true l rest evnt hl
  | cons a as ih =>
    rw [List.cons_append, layerEventLoop_cons_false a _ evnt h (hno a (List.mem_cons_self _ _)),
      ih (fun x hx => hno x (List.mem_cons_of_mem _ hx))]
    rfl

theorem pumpEvents_fields (evs : List EventType) : ∀ (app : ApplicationState),
    (app.pumpEvents evs).m_layerStack = app.m_layerStack ∧
    (app.pumpEvents evs).m_running
      = (if EventType.WindowClose ∈ evs then false else app.m_running) ∧
    ∃ evCalls, (app.pumpEvents evs).calls = app.calls ++ evCalls ∧
      (∀ c ∈ evCalls, c.isOnEvent = true) ∧ (evs = [] → evCalls = []) := by
  induction evs with
  | nil => intro app; exact ⟨rfl, by simp [ApplicationState.pumpEvents], [], by
      simp [ApplicationState.pumpEvents]⟩
  | cons kind rest ih =>
    intro app
    obtain ⟨h1, h2, h3⟩ := OnEvent_fields app { kind := kind, m_Handled := false }
    obtain ⟨i1, i2, ev, i3, i4, _⟩ := ih (app.OnEvent { kind := kind, m_Handled := false }).1
    refine ⟨?_, ?_, ?_⟩
    · rw [ApplicationState.pumpEvents, i1, h1]
    · rw [ApplicationState.pumpEvents, i2, h2]
      by_cases hk : kind = EventType.WindowClose
      · simp [hk]
      · have : (EventType.WindowClose ∈ kind :: rest) ↔ EventType.WindowClose ∈ rest := by
          simp [List.mem_cons, Ne.symm hk]
        simp only [hk, if_false, this]
    · refine ⟨(layerEventLoop app.m_layerStack.layers.reverse
        (app.builtin { kind := kind, m_Handled := false }).2).1 ++ ev, ?_, ?_, by simp⟩
      · rw [ApplicationState.pumpEvents, i3, h3, List.append_assoc]
      · intro c hc
        rcases List.mem_append.1 hc with h | h
        · exact layerEventLoop_isOnEvent _ _ c h
        · exact i4 c h

theorem frame_running (app : ApplicationState) (f : Frame) :
    (app.frame f).m_running
      = (if EventType.WindowClose ∈ f.events then false else app.m_running) := by
  simp only [ApplicationState.frame]
  rw [(pumpEvents_fields f.events _).2.1]

/-- C11: the built-in handling of a WindowClose event clears the running flag, marks the
event consumed and leaves the minimized flag as it is; and when the window delivers a
WindowClose during an iteration of `Run`, the run is exactly the complete iterations up to
and including that one, whatever frames would follow, and ends with the flag cleared. -/
theorem C11_window_close (app : ApplicationState) (handled : Bool)
    (before after : List Frame) (f : Frame) (hrun : app.m_running = true)
    (hbefore : ∀ g ∈ before, EventType.WindowClose ∉ g.events)
    (hclose : EventType.WindowClose ∈ f.events) :
    ((app.builtin ⟨EventType.WindowClose, handled⟩).1.m_running = false ∧
      (app.builtin ⟨EventType.WindowClose, handled⟩).2.m_Handled = true ∧
      (app.builtin ⟨EventType.WindowClose, handled⟩).1.m_minimized = app.m_minimized) ∧
    app.Run (before ++ f :: after) = (before ++ [f]).foldl ApplicationState.frame app ∧
    (app.Run (before ++ f :: after)).m_running = false := by
  refine ⟨builtin_close app handled, ?_⟩
  induction before generalizing app with
  | nil =>
    have h1 : (app.frame f).m_running = false := by rw [frame_running, if_pos hclose]
    have h2 : app.Run (f :: after) = app.frame f := by
      rw [ApplicationState.Run, if_pos hrun]
      cases after with
      | nil => rfl
      | cons a as => rw [ApplicationState.Run, if_neg (by simp [h1])]
    simp only [List.nil_append, List.foldl_cons, List.foldl_nil, h2, h1, and_self]
  | cons g gs ih =>
    have hg : (app.frame g).m_running = true := by
      rw [frame_running, if_neg (hbefore g (List.mem_cons_self _ _))]; exact hrun
    have := ih (app.frame g) hg (fun x hx => hbefore x (List.mem_cons_of_mem _ hx))
    simp only [List.cons_append, ApplicationState.Run, hrun, if_true, List.foldl_cons]
    exact this

theorem C11_window_close_witness :
    ((ApplicationState.create ⟨true, false, ⟨⟨⟨[]⟩⟩, (0, 0, 0, 0), []⟩⟩ 0
        ⟨0, fun _ => false⟩).Run
      ([⟨1, [EventType.Other 7]⟩] ++ ⟨2, [EventType.WindowClose, EventType.Other 8]⟩ ::
        [⟨3, []⟩])).m_running = false :=
  (C11_window_close (ApplicationState.create ⟨true, false, ⟨⟨⟨[]⟩⟩, (0, 0, 0, 0), []⟩⟩ 0
      ⟨0, fun _ => false⟩) false [⟨1, [EventType.Other 7]⟩] [⟨3, []⟩]
      ⟨2, [EventType.WindowClose, EventType.Other 8]⟩ rfl (by decide) (by decide)).2.2

/-- C12: when the event is not marked handled after the built-in handlers, `OnEvent` offers
it to the layers from the last to the first: if a layer marks it handled and no layer above
it does, the layers called are those above it, last first, then that layer, each once, and
none below; if no layer marks it handled, every layer is called, last first. -/
theorem C12_dispatch_order (app : ApplicationState) (evnt : Event)
    (hfresh : (app.builtin evnt).2.m_Handled = false) :
    (∀ (below above : List Layer) (l : Layer),
      app.m_layerStack.layers = below ++ l :: above →
      (∀ x ∈ above, x.OnEvent (app.builtin evnt).2 = false) →
      l.OnEvent (app.builtin evnt).2 = true →
      (app.OnEvent evnt).1.calls = app.calls ++
        (above.reverse.map (fun layer => AppCall.OnEvent layer.name (app.builtin evnt).2)
          ++ [AppCall.OnEvent l.name (app.builtin evnt).2])) ∧
    ((∀ x ∈ app.m_layerStack.layers, x.OnEvent (app.builtin evnt).2 = false) →
      (app.OnEvent evnt).1.calls = app.calls ++
        app.m_layerStack.layers.reverse.map
          (fun layer => AppCall.OnEvent layer.name (app.builtin evnt).2)) := by
  obtain ⟨_, _, h3⟩ := OnEvent_fields app evnt
  refine ⟨?_, ?_⟩
  · intro below above l hst hno hl
    rw [h3, hst, List.reverse_append, List.reverse_cons, List.append_assoc,
      List.singleton_append,
      layerEventLoop_stop above.reverse below.reverse l _ hfresh
        (fun x hx => hno x (List.mem_reverse.1 hx)) hl]
  · intro hno
    rw [h3, layerEventLoop_none _ _ hfresh (fun x hx => hno x (List.mem_reverse.1 hx))]

theorem C12_dispatch_order_witness :
    ((((ApplicationState.create ⟨true, false, ⟨⟨⟨[]⟩⟩, (0, 0, 0, 0), []⟩⟩ 0
        ⟨1, fun _ => false⟩).PushLayer ⟨2, fun _ => true⟩).PushOverlay
        ⟨3, fun _ => false⟩).OnEvent ⟨EventType.Other 0, false⟩).1.calls
      = [AppCall.OnAttach 1, AppCall.OnAttach 2, AppCall.OnAttach 3] ++
        ([AppCall.OnEvent 3 ⟨EventType.Other 0, false⟩]
          ++ [AppCall.OnEvent 2 ⟨EventType.Other 0, false⟩]) :=
  (C12_dispatch_order (((ApplicationState.create ⟨true, false, ⟨⟨⟨[]⟩⟩, (0, 0, 0, 0), []⟩⟩ 0
      ⟨1, fun _ => false⟩).PushLayer ⟨2, fun _ => true⟩).PushOverlay ⟨3, fun _ => false⟩)
    ⟨EventType.Other 0, false⟩ rfl).1 [⟨1, fun _ => false⟩] [⟨3, fun _ => false⟩]
    ⟨2, fun _ => true⟩ rfl (by simp) rfl

/-- C13: one iteration of `Run` makes these calls, in this order: unless minimized,
`OnUpdate` with the same timestep on every layer, first to last; then the UI begin bracket,
`OnImGuiRender` on every layer, first to last, and the UI end bracket; then the window's
`OnUpdate`, within which only the layers' `OnEvent` for the delivered events follow (none
when the window delivers no event). -/
theorem C13_frame_calls (app : ApplicationState) (f : Frame) :
    ∃ evCalls, (app.frame f).calls = app.calls ++
        ((if app.m_minimized then []
          else app.m_layerStack.layers.map
            (fun layer => AppCall.OnUpdate layer.name (f.time - app.m_lastFrameTime)))
        ++ ([AppCall.ImGuiBegin]
          ++ app.m_layerStack.layers.map (fun layer => AppCall.OnImGuiRender layer.name)
          ++ [AppCall.ImGuiEnd])
        ++ [AppCall.WindowOnUpdate] ++ evCalls) ∧
      (∀ c ∈ evCalls, c.isOnEvent = true) ∧ (f.events = [] → evCalls = []) := by
  obtain ⟨_, _, ev, h1, h2, h3⟩ := pumpEvents_fields f.events
    { app with
      m_lastFrameTime := f.time,
      calls := app.calls ++ (updatePhase app.m_minimized app.m_layerStack.layers
        (f.time - app.m_lastFrameTime) ++
        (renderPhase app.m_layerStack.layers ++ [AppCall.WindowOnUpdate])) }
  refine ⟨ev, ?_, h2, h3⟩
  simp only [ApplicationState.frame]
  rw [h1]
  cases hm : app.m_minimized <;>
    simp [updatePhase, renderPhase, hm, List.append_assoc]

/-! ## Claims about the splitter's last directive and the uniform setters -/

/-- A buffer with a directive after whose line only line terminators follow is not
accepted: no stage map is returned. -/
theorem split_last_directive (s : List Char) (hlen : s.length < npos) (p : Nat)
    (hp : tokenAt s p = true)
    (hlast : ∀ k, p ≤ k → isLineEndAt s k = true →
      ∀ j, k ≤ j → j < s.length → isLineEndAt s j = true) :
    ∀ m, splitShaderSource s ≠ .ok m := by
  intro m hok
  rw [tokenAt_iff] at hp
  obtain ⟨_, h2, h3⟩ := find_zero_occ s p hlen hp
  obtain ⟨g, src, p1, hd, _⟩ := splitLoop_get s p hlen hp _ _ [] m hok h3 h2
  obtain ⟨e, n, q, ⟨he1, he2, _⟩, ⟨hn1, hn2, hn3, _⟩, _, _⟩ :=
    directive_extent s p g src p1 hlen hp hd
  have := hlast e he1 he2 n (by omega) hn2
  rw [hn3] at this
  exact absurd this (by simp)

/-- C15: evaluation at the failing inputs. When the directive line is the last line of the
buffer, `nextLinePos` is `npos` and `substr(nextLinePos, ...)` throws `std::out_of_range`:
no stage map is returned. -/
theorem C15_last_directive_throws :
    splitShaderSource "#type vertex\n".toList = .error .out_of_range ∧
    splitShaderSource "#type vertex\nA\n#type fragment\n".toList = .error .out_of_range := by
  decide

theorem setters_use_first (sh : OpenGLShader) (gl : GLDriver) (name listName memberName : String)
    (b : Bool) (value location : Int) (idx size : Nat) (ints : List Int) (vec : Vec4)
    (vecs : List Vec4) (v1 v2 v3 v4 : Nat) :
    (sh.setBool gl name b).head? = some (GLCall.glUseProgram sh.id) ∧
    (sh.setBool_loc location b).head? = some (GLCall.glUseProgram sh.id) ∧
    (sh.setInt gl name value).head? = some (GLCall.glUseProgram sh.id) ∧
    (sh.setInt_member gl listName memberName value).head? = some (GLCall.glUseProgram sh.id) ∧
    (sh.setInt_indexed gl listName memberName value idx).head?
      = some (GLCall.glUseProgram sh.id) ∧
    (sh.setInt_loc location value).head? = some (GLCall.glUseProgram sh.id) ∧
    (sh.setInt_vector gl name ints).head? = some (GLCall.glUseProgram sh.id) ∧
    (sh.setInt_vector_fill gl name value size).head? = some (GLCall.glUseProgram sh.id) ∧
    (sh.setInt_vector_member gl listName memberName ints).head?
      = some (GLCall.glUseProgram sh.id) ∧
    (sh.setInt_vector_member_fill gl listName memberName value size).head?
      = some (GLCall.glUseProgram sh.id) ∧
    (sh.set4f gl name v1 v2 v3 v4).head? = some (GLCall.glUseProgram sh.id) ∧
    (sh.set4fv gl name vec).head? = some (GLCall.glUseProgram sh.id) ∧
    (sh.set4fv_member gl listName memberName vec).head? = some (GLCall.glUseProgram sh.id) ∧
    (sh.set4fv_indexed gl listName memberName vec idx).head?
      = some (GLCall.glUseProgram sh.id) ∧
    (sh.set4fv_loc location vec).head? = some (GLCall.glUseProgram sh.id) ∧
    (sh.set4f_loc location v1 v2 v3 v4).head? = some (GLCall.glUseProgram sh.id) ∧
    (sh.set4fv_vector gl name vecs).head? = some (GLCall.glUseProgram sh.id) ∧
    (sh.set4fv_vector_fill gl name vec size).head? = some (GLCall.glUseProgram sh.id) :=
  ⟨rfl, rfl, rfl, rfl, rfl, rfl, rfl, rfl, rfl, rfl, rfl, rfl, rfl, rfl, rfl, rfl, rfl, rfl⟩

/-- The two `set4fv_vector` overloads that take a list name and a member name start with a
location query when they have an element to upload, and issue nothing otherwise. -/
theorem set4fv_vector_member_first (sh : OpenGLShader) (gl : GLDriver)
    (listName memberName : String) (v : Vec4) (vs : List Vec4) (size : Nat) :
    (sh.set4fv_vector_member gl listName memberName (v :: vs)).head?
      = some (GLCall.glGetUniformLocation sh.id
          (listName ++ "[" ++ toString 0 ++ "]." ++ memberName)) ∧
    (sh.set4fv_vector_member_fill gl listName memberName v (size + 1)).head?
      = some (GLCall.glGetUniformLocation sh.id
          (listName ++ "[" ++ toString 0 ++ "]." ++ memberName)) ∧
    sh.set4fv_vector_member gl listName memberName [] = [] ∧
    sh.set4fv_vector_member_fill gl listName memberName v 0 = [] :=
  ⟨rfl, rfl, rfl, rfl⟩

/-- C16: evaluation at the failing inputs. `set4fv_vector(listName, memberName, vec)` and
`set4fv_vector(listName, memberName, vec, size)` on program 3 first issue
`glGetUniformLocation`, and `glUseProgram` only after it; with an empty sequence or a count
of 0 they issue no command at all. -/
theorem C16_set4fv_vector_member_no_use :
    OpenGLShader.set4fv_vector_member ⟨3⟩ ⟨fun _ _ => 5, fun _ _ => 6⟩ "lights" "color"
        [⟨[1, 2, 3, 4]⟩]
      = [GLCall.glGetUniformLocation 3 "lights[0].color", GLCall.glUseProgram 3,
         GLCall.glUniform4fv 5 1 ⟨[1, 2, 3, 4]⟩] ∧
    OpenGLShader.set4fv_vector_member_fill ⟨3⟩ ⟨fun _ _ => 5, fun _ _ => 6⟩ "lights" "color"
        ⟨[1, 2, 3, 4]⟩ 1
      = [GLCall.glGetUniformLocation 3 "lights[0].color", GLCall.glUseProgram 3,
         GLCall.glUniform4fv 5 1 ⟨[1, 2, 3, 4]⟩] ∧
    OpenGLShader.set4fv_vector_member ⟨3⟩ ⟨fun _ _ => 5, fun _ _ => 6⟩ "lights" "color" [] = [] ∧
    OpenGLShader.set4fv_vector_member_fill ⟨3⟩ ⟨fun _ _ => 5, fun _ _ => 6⟩ "lights" "color"
        ⟨[1, 2, 3, 4]⟩ 0 = [] := by
  decide

theorem pushLayer_fold (ls : List Layer) : ∀ (app : ApplicationState),
    app.m_layerStack.boundary = app.m_layerStack.layers.length →
    (ls.foldl ApplicationState.PushLayer app).m_layerStack.layers
      = app.m_layerStack.layers ++ ls := by
  induction ls with
  | nil => intro app _; simp
  | cons l rest ih =>
    intro app hb
    have h1 : (app.PushLayer l).m_layerStack.layers = app.m_layerStack.layers ++ [l] := by
      simp [ApplicationState.PushLayer, LayerStack.PushLayer, hb]
    have h2 : (app.PushLayer l).m_layerStack.boundary
        = (app.PushLayer l).m_layerStack.layers.length := by
      rw [h1]
      simp [ApplicationState.PushLayer, LayerStack.PushLayer, hb]
    rw [List.foldl_cons, ih _ h2, h1, List.append_assoc, List.singleton_append]

/-- C14 (amended): the constructor pushes the debug-overlay layer with `PushLayer`, before
the overlay boundary, and attaches it; after any later sequence of `Application::PushLayer`
calls it is the first entry of the layer stack, followed by the layers pushed, in order: it
is updated first and is the last layer an event is offered to. -/
theorem C14_debug_layer_first (members : Application) (lastFrameTime : Int)
    (imGuiLayer : Layer) (ls : List Layer) :
    (ApplicationState.create members lastFrameTime imGuiLayer).calls
      = [AppCall.OnAttach imGuiLayer.name] ∧
    (ls.foldl ApplicationState.PushLayer
      (ApplicationState.create members lastFrameTime imGuiLayer)).m_layerStack.layers
      = imGuiLayer :: ls ∧
    (ls.foldl ApplicationState.PushLayer
      (ApplicationState.create members lastFrameTime imGuiLayer)).m_layerStack.layers.reverse
      = ls.reverse ++ [imGuiLayer] := by
  have h := pushLayer_fold ls (ApplicationState.create members lastFrameTime imGuiLayer) rfl
  have hc : (ApplicationState.create members lastFrameTime imGuiLayer).m_layerStack.layers
      = [imGuiLayer] := rfl
  rw [hc] at h
  refine ⟨rfl, ?_, ?_⟩
  · rw [h]; rfl
  · rw [h]; simp

/-- C14, as stated, fails: after the constructor and one `PushLayer` of layer 1, the stack
is debug layer 0 then layer 1, so layer 1 is the last entry and the first to be offered an
event, and the debug layer is offered it second. -/
theorem C14_debug_layer_counterexample :
    (((ApplicationState.create ⟨true, false, ⟨⟨⟨[]⟩⟩, (0, 0, 0, 0), []⟩⟩ 0
        ⟨0, fun _ => false⟩).PushLayer ⟨1, fun _ => false⟩).m_layerStack.layers.map
        (fun layer => layer.name)) = [0, 1] ∧
    (((ApplicationState.create ⟨true, false, ⟨⟨⟨[]⟩⟩, (0, 0, 0, 0), []⟩⟩ 0
        ⟨0, fun _ => false⟩).PushLayer ⟨1, fun _ => false⟩).OnEvent
        ⟨EventType.Other 0, false⟩).1.calls
      = [AppCall.OnAttach 0, AppCall.OnAttach 1,
         AppCall.OnEvent 1 ⟨EventType.Other 0, false⟩,
         AppCall.OnEvent 0 ⟨EventType.Other 0, false⟩] := by
  decide

/-- C17: with a non-empty layer stack, `OnEvent` calls the last layer's `OnEvent` first and
once, with the event as the built-in handlers leave it, whether or not it is already marked
handled; the calls that follow go to layers below it, last first, and there are none when
the last layer leaves the event marked handled. A WindowClose event is marked handled by
the built-in handler before the layers are reached. -/
theorem C17_topmost_always_called (app : ApplicationState) (evnt : Event)
    (below : List Layer) (top : Layer)
    (hst : app.m_layerStack.layers = below ++ [top]) :
    (∃ k, (app.OnEvent evnt).1.calls = app.calls ++
        AppCall.OnEvent top.name (app.builtin evnt).2 ::
          (below.reverse.take k).map (fun layer =>
            AppCall.OnEvent layer.name { (app.builtin evnt).2 with m_Handled := false }) ∧
      (top.OnEvent (app.builtin evnt).2 = true → k = 0)) ∧
    (evnt.kind = EventType.WindowClose → (app.builtin evnt).2.m_Handled = true) := by
  obtain ⟨_, _, h3⟩ := OnEvent_fields app evnt
  refine ⟨?_, ?_⟩
  · rw [h3, hst, List.reverse_append, List.reverse_singleton, List.singleton_append]
    by_cases ht : top.OnEvent (app.builtin evnt).2 = true
    · exact ⟨0, by rw [layerEventLoop_cons_true top _ _ ht]; rfl, fun _ => rfl⟩
    · obtain ⟨k, hk⟩ := layerEventLoop_shape below.reverse
        { (app.builtin evnt).2 with m_Handled := false } rfl
      refine ⟨k, ?_, fun h => absurd h ht⟩
      have hf : top.OnEvent (app.builtin evnt).2 = false := by simpa using ht
      simp only [layerEventLoop, hf, Bool.false_eq_true, if_false, hk]
  · intro hk
    obtain ⟨kind, handled⟩ := evnt
    simp only at hk
    subst hk
    exact (builtin_close app handled).2.1

theorem C17_topmost_always_called_witness :
    (∃ k, (((ApplicationState.create ⟨true, false, ⟨⟨⟨[]⟩⟩, (0, 0, 0, 0), []⟩⟩ 0
          ⟨0, fun _ => false⟩).PushLayer ⟨1, fun e => e.m_Handled⟩).OnEvent
          ⟨EventType.WindowClose, false⟩).1.calls
        = [AppCall.OnAttach 0, AppCall.OnAttach 1] ++
          AppCall.OnEvent 1 ⟨EventType.WindowClose, true⟩ ::
            (([⟨0, fun _ => false⟩] : List Layer).reverse.take k).map (fun layer =>
              AppCall.OnEvent layer.name ⟨EventType.WindowClose, false⟩) ∧
      (true = true → k = 0)) ∧
    (EventType.WindowClose = EventType.WindowClose → true = true) :=
  C17_topmost_always_called ((ApplicationState.create
      ⟨true, false, ⟨⟨⟨[]⟩⟩, (0, 0, 0, 0), []⟩⟩ 0 ⟨0, fun _ => false⟩).PushLayer
      ⟨1, fun e => e.m_Handled⟩) ⟨EventType.WindowClose, false⟩ [⟨0, fun _ => false⟩]
    ⟨1, fun e => e.m_Handled⟩ rfl

end Engine
